import Mathlib

/-!
# Block memory manager (`bmm.c`)

A shallow embedding of the three functions of `src/bmm.c` (`bmm_init`,
`bmm_alloc`, `bmm_free`) and the properties proved about them.

Conventions of the embedding.

* `unsigned int` values are naturals reduced modulo `2 ^ 32`, pointers and
  `unsigned long long` values are naturals reduced modulo `2 ^ 64`; every
  operation of the source that can wrap carries its reduction explicitly
  (`x - 1` at type `unsigned int` is `(U32 - 1 + x) % U32`).
* The descriptor `struct mem_pool` is a record with the fields of the source.
  The pointer field `bitmap` is split in two: `bitmap_addr` is the pointer
  value and `bitmap` is the `unsigned int` array it designates, `bitmap w`
  being the word `bitmap[w]`.
* A call that aborts or has no defined result (a failed `assert`, a division
  by zero) yields `none`.
* `NULL` is the address `0`.
* `bmm_alloc_log` is `bmm_alloc` with a record of the bit tests of its loops;
  `bmm_alloc_log_erase` shows that dropping the record gives `bmm_alloc`.
-/

namespace Bmm

/-! ## Constants of the source -/

def BITS_OF_U32 : Nat := 32

def BITMAP_BYTE_OFFSET : Nat := 5

def BITMAP_BIT_OFFSET : Nat := 0x1F

def TAG : Nat := 0x0a0b0c0d

/-- Value of `EINVAL` in `errno.h`. -/
def EINVAL : Nat := 22

/-- Value of `ENOMEM` in `errno.h`. -/
def ENOMEM : Nat := 12

/-- Number of values of an `unsigned int`, `2 ^ 32`. -/
def U32 : Nat := 4294967296

/-- Number of values of an `unsigned long long` and of a pointer, `2 ^ 64`. -/
def U64 : Nat := 18446744073709551616

/-- Number of values of an `unsigned short`, `2 ^ 16`. -/
def U16 : Nat := 65536

/-- Size of `struct mem_pool` on an LP64 target: `tag` at 0, `base` at 8,
`mem_size`, `block_size`, `block_num`, `num_free`, `index` at 16 to 32,
`bitmap` at 40. -/
def sizeof_mem_pool : Nat := 48

/-- Size of an `unsigned int`. -/
def sizeof_unsigned_int : Nat := 4

/-! ## The descriptor -/

structure mem_pool where
  tag : Nat
  base : Nat
  mem_size : Nat
  block_size : Nat
  block_num : Nat
  num_free : Nat
  index : Nat
  bitmap_addr : Nat
  bitmap : Nat → Nat

/-! ## `ALIGN` -/

/-- The macro `__ALIGN_MASK(x, mask)` at type `unsigned int`:
`((x) + (mask)) & ~(mask)`. -/
def __ALIGN_MASK (x mask : Nat) : Nat :=
  ((x + mask) % U32) &&& ((U32 - 1) ^^^ mask)

/-- The macro `ALIGN(x, a)` at type `unsigned int`:
`__ALIGN_MASK(x, (typeof(x))(a) - 1)`. -/
def ALIGN (x a : Nat) : Nat :=
  __ALIGN_MASK x ((U32 - 1 + a) % U32)

/-! ## `bmm_init` -/

/-- The function `bmm_init`. The argument `region` is what the caller's
region holds before the call (its `bitmap` field gives the words found where
the bitmap array is going to be); the result is the returned code with what
the region holds afterwards. -/
def bmm_init (region : mem_pool) (addr_base mem_size block_size align_size : Nat) :
    Option (Nat × mem_pool) :=
  if align_size = 0 ∨ align_size &&& ((U32 - 1 + align_size) % U32) ≠ 0 then
    some (EINVAL, region)
  else if addr_base &&& ((U32 - 1 + align_size) % U32) ≠ 0 then
    some (EINVAL, region)
  else
    let act_blksize := ALIGN block_size align_size
    if mem_size ≤ act_blksize then
      some (ENOMEM, region)
    else
      -- memset(mempool, 0, sizeof(*mempool))
      let mempool : mem_pool :=
        { tag := 0, base := 0, mem_size := 0, block_size := 0, block_num := 0,
          num_free := 0, index := 0, bitmap_addr := 0, bitmap := region.bitmap }
      let mempool := { mempool with tag := TAG }
      let mempool := { mempool with mem_size := mem_size }
      let mempool := { mempool with block_size := act_blksize }
      -- mem_size / act_blksize
      if act_blksize = 0 then
        none
      else
        let mempool := { mempool with block_num := mem_size / act_blksize }
        let bitmap_sz :=
          (((U32 - 1 + mempool.block_num) % U32 / BITS_OF_U32 + 1) % U32
            * sizeof_unsigned_int) % U32
        let mempool := { mempool with
          base := ((((addr_base + sizeof_mem_pool + bitmap_sz) % U64) / align_size + 1) % U64
                    * align_size) % U64 }
        let mempool := { mempool with num_free := mempool.block_num }
        let mempool := { mempool with
          bitmap_addr := (mempool.base + (sizeof_mem_pool + 1)) % U64 }
        -- memset(mempool->bitmap, 0, bitmap_sz)
        let mempool := { mempool with
          bitmap := fun w => if w < bitmap_sz / sizeof_unsigned_int then 0 else mempool.bitmap w }
        some (0, mempool)

/-! ## `bmm_alloc` -/

/-- One of the two `for` loops of `bmm_alloc`, with `limit` the bound of the
loop condition `mempool->index < limit` and a count of iterations. The first
component of the result is the value of the `return` statement inside the loop
when it is reached, and `none` when the loop is left without returning. -/
def alloc_scan (limit : Nat) : Nat → mem_pool → Option Nat × mem_pool
  | 0, mempool => (none, mempool)
  | fuel + 1, mempool =>
    if mempool.index < limit then
      let byte_pos := (mempool.index >>> BITMAP_BYTE_OFFSET) % U32
      let bit_pos := (mempool.index &&& BITMAP_BIT_OFFSET) % U16
      if mempool.bitmap byte_pos &&& (0x1 <<< bit_pos) = 0 then
        let mempool := { mempool with index := (mempool.index + 1) % U32 }
        let mempool := { mempool with num_free := (U32 - 1 + mempool.num_free) % U32 }
        let mempool := { mempool with
          bitmap := Function.update mempool.bitmap byte_pos
            (mempool.bitmap byte_pos ||| (0x1 <<< bit_pos)) }
        (some ((mempool.base
            + ((U32 - 1 + mempool.index) % U32 * mempool.block_size) % U32) % U64),
          mempool)
      else
        alloc_scan limit fuel { mempool with index := (mempool.index + 1) % U32 }
    else
      (none, mempool)

/-- The function `bmm_alloc`: the returned pointer (`0` is `NULL`) and the
descriptor after the call. Each loop is given the number of iterations that
separate the cursor from the bound of its condition, so a loop that does not
return stops because its condition fails (`alloc_scan_eq`). -/
def bmm_alloc (pool : mem_pool) : Option (Nat × mem_pool) :=
  let mempool := pool
  let index_tmp := mempool.index
  -- assert(mempool->tag == TAG)
  if mempool.tag ≠ TAG then
    none
  else
    match alloc_scan mempool.block_num (mempool.block_num - mempool.index) mempool with
    | (some p, mempool) => some (p, mempool)
    | (none, mempool) =>
      match alloc_scan index_tmp index_tmp { mempool with index := 0 } with
      | (some p, mempool) => some (p, mempool)
      | (none, mempool) => some (0, mempool)

/-! ## `bmm_free` -/

/-- The function `bmm_free`: the descriptor after the call and the value
stored to `errno`, if any. -/
def bmm_free (pool : mem_pool) (buf : Nat) : Option (mem_pool × Option Nat) :=
  let mempool := pool
  -- assert(mempool->tag == TAG)
  if mempool.tag ≠ TAG then
    none
  -- (buf - mempool->base) / mempool->block_size
  else if mempool.block_size = 0 then
    none
  else
    let addr_offset := ((buf + (U64 - mempool.base % U64)) % U64) / mempool.block_size
    if (addr_offset + 1) % U64 > mempool.block_num then
      some (mempool, some EINVAL)
    else
      let byte_pos := (addr_offset >>> BITMAP_BYTE_OFFSET) % U32
      let bit_pos := (addr_offset &&& BITMAP_BIT_OFFSET) % U16
      let mempool := { mempool with
        bitmap := Function.update mempool.bitmap byte_pos
          (mempool.bitmap byte_pos &&& ((U32 - 1) ^^^ (1 <<< bit_pos))) }
      let mempool := { mempool with num_free := (mempool.num_free + 1) % U32 }
      some (mempool, none)

/-! ## Notions used to state the properties -/

/-- Bit `i` of the occupancy bitmap: bit `i mod 32` of word `i / 32`. -/
def bit_is_set (bitmap : Nat → Nat) (i : Nat) : Bool :=
  (bitmap (i / 32)).testBit (i % 32)

/-- Number of set bits among the bits `0 .. n-1` of the bitmap. -/
def popcount (bitmap : Nat → Nat) (n : Nat) : Nat :=
  (List.range n).countP (bit_is_set bitmap)

/-- The block indices in the cyclic order `c, c+1, ..., n-1, 0, 1, ..., c-1`. -/
def cyclic_order (c n : Nat) : List Nat :=
  List.range' c (n - c) ++ List.range c

/-- The first index, in the cyclic order that starts at the cursor `c`, whose
bit is clear. -/
def first_clear (bitmap : Nat → Nat) (c n : Nat) : Option Nat :=
  (cyclic_order c n).find? (fun i => !bit_is_set bitmap i)

/-- An initialised pool state: the descriptor fields have the relations that
`bmm_init` establishes, the block array lies in the 64-bit address space and
does not start at `NULL`, and the free counter accounts for the clear bits. -/
structure Inited (s : mem_pool) : Prop where
  tag_eq : s.tag = TAG
  mem_size_lt : s.mem_size < U32
  block_size_pos : 0 < s.block_size
  block_num_eq : s.block_num = s.mem_size / s.block_size
  block_num_pos : 0 < s.block_num
  base_pos : 0 < s.base
  fits : s.base + s.block_num * s.block_size ≤ U64
  accounting : s.num_free + popcount s.bitmap s.block_num = s.block_num

/-- Address of block `i`, as the `return` statements of `bmm_alloc` compute
it: the product is an `unsigned int`, the sum an `unsigned long long`. -/
def block_addr (s : mem_pool) (i : Nat) : Nat :=
  (s.base + (i * s.block_size) % U32) % U64

/-- The descriptor after block `i` has been handed out: the cursor is past
`i`, the free counter is decremented, bit `i` is set. -/
def take_block (s : mem_pool) (i : Nat) : mem_pool :=
  { s with
    index := i + 1
    num_free := (U32 - 1 + s.num_free) % U32
    bitmap := Function.update s.bitmap (i / 32) (s.bitmap (i / 32) ||| (1 <<< (i % 32))) }

/-- Outcome of a scan that found `found`, or that stopped with the cursor at
`stop` without finding a clear bit. -/
def scan_result (s : mem_pool) (found : Option Nat) (stop : Nat) : Option Nat × mem_pool :=
  match found with
  | some i => (some (block_addr s i), take_block s i)
  | none => (none, { s with index := stop })

/-- The descriptor after block `off` has been given back: bit `off` is
cleared and the free counter is incremented as an `unsigned int`. -/
def release_block (s : mem_pool) (off : Nat) : mem_pool :=
  { s with
    bitmap := Function.update s.bitmap (off / 32)
      (s.bitmap (off / 32) &&& ((U32 - 1) ^^^ (1 <<< (off % 32))))
    num_free := (s.num_free + 1) % U32 }

/-- The states reached from the pool `p` by calls of `bmm_alloc` and
`bmm_free`, each with the list of the addresses handed out and not freed
since; `bmm_free` is applied to such addresses only. -/
inductive Reach (p : mem_pool) : mem_pool → List Nat → Prop
  | start : Reach p p []
  | alloc {s s' : mem_pool} {live : List Nat} {a : Nat} :
      Reach p s live → bmm_alloc s = some (a, s') →
      Reach p s' (if a = 0 then live else a :: live)
  | free {s s' : mem_pool} {live : List Nat} {buf : Nat} {e : Option Nat} :
      Reach p s live → buf ∈ live → bmm_free s buf = some (s', e) →
      Reach p s' (live.erase buf)

/-- What holds of a reached state and its list of live addresses: the pool is
initialised with the cursor within `0 .. block_num`, the geometry is that of
`p`, and the live addresses are distinct block addresses whose bits are set. -/
structure Live (p s : mem_pool) (live : List Nat) : Prop where
  inited : Inited s
  cursor : s.index ≤ s.block_num
  base_eq : s.base = p.base
  block_size_eq : s.block_size = p.block_size
  block_num_eq : s.block_num = p.block_num
  blocks : ∀ x, x ∈ live →
    ∃ k, k < s.block_num ∧ x = s.base + k * s.block_size ∧ bit_is_set s.bitmap k = true
  nodup : live.Nodup

/-! ## Concrete pools -/

/-- The pool of 256 blocks of 4096 bytes at base 8192 after every block has
been handed out and block 0 has been freed. -/
def pool_256_one_free : mem_pool :=
  { tag := TAG, base := 8192, mem_size := 1048576, block_size := 4096, block_num := 256,
    num_free := 1, index := 256, bitmap_addr := 8241,
    bitmap := fun w => if w = 0 then 0xFFFFFFFE else if w < 8 then 0xFFFFFFFF else 0 }

/-- A pool of 4 blocks of 16 bytes in which every block is handed out. -/
def pool_4_full : mem_pool :=
  { tag := TAG, base := 4160, mem_size := 64, block_size := 16, block_num := 4,
    num_free := 0, index := 2, bitmap_addr := 4209,
    bitmap := fun w => if w = 0 then 0xF else 0 }

/-- A region that holds zeros everywhere. -/
def zero_region : mem_pool :=
  { tag := 0, base := 0, mem_size := 0, block_size := 0, block_num := 0, num_free := 0,
    index := 0, bitmap_addr := 0, bitmap := fun _ => 0 }

/-- A pool of 8 blocks of 8 bytes with blocks 0, 1 and 4 handed out. -/
def pool_8 : mem_pool :=
  { tag := TAG, base := 4160, mem_size := 64, block_size := 8, block_num := 8,
    num_free := 5, index := 5, bitmap_addr := 4209,
    bitmap := fun w => if w = 0 then 0x13 else 0 }

/-- The pool that `bmm_init` builds in a zeroed region at address 4096 for
`mem_size = 2 ^ 32 - 1`, `block_size = 1`, `align_size = 1`. -/
def pool_max : mem_pool :=
  { tag := TAG, base := 536875057, mem_size := 4294967295, block_size := 1,
    block_num := 4294967295, num_free := 4294967295, index := 0, bitmap_addr := 536875106,
    bitmap := fun w => if w < 134217728 then 0 else 0 }

/-- The pool that `bmm_init` builds in a zeroed region at address 4096 for
`mem_size = 256 * 4096`, `block_size = 4096`, `align_size = 4096`. -/
def pool_256 : mem_pool :=
  { tag := TAG, base := 8192, mem_size := 1048576, block_size := 4096, block_num := 256,
    num_free := 256, index := 0, bitmap_addr := 8241,
    bitmap := fun w => if w < 8 then 0 else 0 }

/-- The descriptor after `n` successive calls of `bmm_alloc`, with the
addresses returned, most recent first. -/
def alloc_many : Nat → mem_pool → Option (List Nat × mem_pool)
  | 0, s => some ([], s)
  | n + 1, s =>
    match alloc_many n s with
    | none => none
    | some (l, s') =>
      match bmm_alloc s' with
      | none => none
      | some (a, s'') => some (a :: l, s'')

/-- The descriptor fields that describe the geometry of the pool are the same
in `s'` as in `s`. -/
def same_geometry (s s' : mem_pool) : Prop :=
  s'.tag = s.tag ∧ s'.base = s.base ∧ s'.mem_size = s.mem_size ∧
    s'.block_size = s.block_size ∧ s'.block_num = s.block_num

/-- The states reached from the pool `p` by calls of `bmm_alloc` and of
`bmm_free` with any addresses. -/
inductive ReachAny (p : mem_pool) : mem_pool → Prop
  | start : ReachAny p p
  | alloc {s s' : mem_pool} {a : Nat} :
      ReachAny p s → bmm_alloc s = some (a, s') → ReachAny p s'
  | free {s s' : mem_pool} {buf : Nat} {e : Option Nat} :
      ReachAny p s → bmm_free s buf = some (s', e) → ReachAny p s'

/-- What every call keeps of a pool built by `bmm_init`, whatever addresses
`bmm_free` is given: the tag, the relation between the sizes and the block
count, and the cursor within `0 .. block_num`. -/
structure Geom (s : mem_pool) : Prop where
  tag_eq : s.tag = TAG
  mem_size_lt : s.mem_size < U32
  block_size_pos : 0 < s.block_size
  block_num_eq : s.block_num = s.mem_size / s.block_size
  block_num_pos : 0 < s.block_num
  cursor : s.index ≤ s.block_num

/-- The predicate `P` on pool states: the cursor is at most `block_num`, the
free counter accounts for the clear bits, and in the words of the bitmap no
bit at an index from `block_num` on is set. -/
structure P_inv (s : mem_pool) : Prop where
  cursor : s.index ≤ s.block_num
  accounting : s.num_free + popcount s.bitmap s.block_num = s.block_num
  no_stray : ∀ k, s.block_num ≤ k → k < 32 * ((s.block_num - 1) / 32 + 1) →
    bit_is_set s.bitmap k = false

/-- The states reached from the pool `p` without a double free: by calls of
`bmm_alloc`, by calls of `bmm_free` that are rejected, and by calls of
`bmm_free` with an address inside a block whose bit is set. -/
inductive ReachSafe (p : mem_pool) : mem_pool → Prop
  | start : ReachSafe p p
  | alloc {s s' : mem_pool} {a : Nat} :
      ReachSafe p s → bmm_alloc s = some (a, s') → ReachSafe p s'
  | free_rejected {s s' : mem_pool} {buf e : Nat} :
      ReachSafe p s → bmm_free s buf = some (s', some e) → ReachSafe p s'
  | free_set {s s' : mem_pool} {buf : Nat} {e : Option Nat} :
      ReachSafe p s → s.base ≤ buf → buf < s.base + s.block_num * s.block_size →
      bit_is_set s.bitmap ((buf - s.base) / s.block_size) = true →
      bmm_free s buf = some (s', e) → ReachSafe p s'

/-- The loop `alloc_scan` with a record of its bit tests: the third component
lists, in order, the cursor value and the word index `byte_pos` of every test
`bitmap_t[byte_pos] & (0x1 << bit_pos)` the loop has made. The word written on
a hit is the word of the last test. -/
def alloc_scan_log (limit : Nat) : Nat → mem_pool → Option Nat × mem_pool × List (Nat × Nat)
  | 0, mempool => (none, mempool, [])
  | fuel + 1, mempool =>
    if mempool.index < limit then
      let byte_pos := (mempool.index >>> BITMAP_BYTE_OFFSET) % U32
      let bit_pos := (mempool.index &&& BITMAP_BIT_OFFSET) % U16
      let tested := (mempool.index, byte_pos)
      if mempool.bitmap byte_pos &&& (0x1 <<< bit_pos) = 0 then
        let mempool := { mempool with index := (mempool.index + 1) % U32 }
        let mempool := { mempool with num_free := (U32 - 1 + mempool.num_free) % U32 }
        let mempool := { mempool with
          bitmap := Function.update mempool.bitmap byte_pos
            (mempool.bitmap byte_pos ||| (0x1 <<< bit_pos)) }
        (some ((mempool.base
            + ((U32 - 1 + mempool.index) % U32 * mempool.block_size) % U32) % U64),
          mempool, [tested])
      else
        let r := alloc_scan_log limit fuel { mempool with index := (mempool.index + 1) % U32 }
        (r.1, r.2.1, tested :: r.2.2)
    else
      (none, mempool, [])

/-- The function `bmm_alloc` with the record of the bit tests of its two
loops. -/
def bmm_alloc_log (pool : mem_pool) : Option (Nat × mem_pool × List (Nat × Nat)) :=
  let mempool := pool
  let index_tmp := mempool.index
  if mempool.tag ≠ TAG then
    none
  else
    match alloc_scan_log mempool.block_num (mempool.block_num - mempool.index) mempool with
    | (some p, mempool, tested) => some (p, mempool, tested)
    | (none, mempool, tested) =>
      match alloc_scan_log index_tmp index_tmp { mempool with index := 0 } with
      | (some p, mempool, tested') => some (p, mempool, tested ++ tested')
      | (none, mempool, tested') => some (0, mempool, tested ++ tested')

/-! # Theorems -/

/-! ## Bit-level facts -/

theorem U32_eq : U32 = 2 ^ 32 := by norm_num [U32]

theorem U64_eq : U64 = 2 ^ 64 := by norm_num [U64]

theorem and_one_shiftLeft_eq_zero (w k : Nat) :
    w &&& (1 <<< k) = 0 ↔ w.testBit k = false := by
  rw [Nat.one_shiftLeft, Nat.and_two_pow]
  cases w.testBit k <;> simp

theorem byte_pos_eq (i : Nat) (h : i < U32) :
    (i >>> BITMAP_BYTE_OFFSET) % U32 = i / 32 := by
  have h1 : i >>> BITMAP_BYTE_OFFSET = i / 32 := by
    simp [BITMAP_BYTE_OFFSET, Nat.shiftRight_eq_div_pow]
  rw [h1]
  exact Nat.mod_eq_of_lt (lt_of_le_of_lt (Nat.div_le_self _ _) h)

theorem bit_pos_eq (i : Nat) : (i &&& BITMAP_BIT_OFFSET) % U16 = i % 32 := by
  have h1 : i &&& BITMAP_BIT_OFFSET = i % 32 := by
    have := Nat.and_pow_two_sub_one_eq_mod i 5
    simpa [BITMAP_BIT_OFFSET] using this
  rw [h1]
  apply Nat.mod_eq_of_lt
  have : i % 32 < 32 := Nat.mod_lt _ (by norm_num)
  simp only [U16]; omega

theorem index_eq_of_div_mod {i k : Nat} (h1 : k / 32 = i / 32) (h2 : k % 32 = i % 32) :
    k = i := by
  omega

/-- Setting bit `i` with `bitmap[i / 32] | (1 << (i % 32))` sets bit `i` and
keeps every other bit. -/
theorem bit_is_set_set (bitmap : Nat → Nat) (i k : Nat) :
    bit_is_set (Function.update bitmap (i / 32) (bitmap (i / 32) ||| (1 <<< (i % 32)))) k
      = (decide (k = i) || bit_is_set bitmap k) := by
  unfold bit_is_set
  by_cases hw : k / 32 = i / 32
  · rw [hw, Function.update_same, Nat.testBit_or, Nat.one_shiftLeft, Nat.testBit_two_pow]
    by_cases hb : i % 32 = k % 32
    · have : k = i := index_eq_of_div_mod hw hb.symm
      simp [this]
    · have : k ≠ i := fun h => hb (by rw [h])
      simp [hb, this]
  · have : k ≠ i := fun h => hw (by rw [h])
    rw [Function.update_noteq hw]
    simp [this]

/-- Clearing bit `i` with `bitmap[i / 32] & ~(1 << (i % 32))` clears bit `i`
and keeps every other bit. -/
theorem bit_is_set_clear (bitmap : Nat → Nat) (i k : Nat) :
    bit_is_set (Function.update bitmap (i / 32)
        (bitmap (i / 32) &&& ((U32 - 1) ^^^ (1 <<< (i % 32))))) k
      = (decide (k ≠ i) && bit_is_set bitmap k) := by
  unfold bit_is_set
  have hk : k % 32 < 32 := Nat.mod_lt _ (by norm_num)
  by_cases hw : k / 32 = i / 32
  · rw [hw, Function.update_same, Nat.testBit_and, Nat.testBit_xor, Nat.one_shiftLeft,
      Nat.testBit_two_pow, U32_eq, Nat.testBit_two_pow_sub_one]
    by_cases hb : i % 32 = k % 32
    · have : k = i := index_eq_of_div_mod hw hb.symm
      subst this
      simp [hk]
    · have : k ≠ i := fun h => hb (by rw [h])
      simp [hb, this, hk]
  · have : k ≠ i := fun h => hw (by rw [h])
    rw [Function.update_noteq hw]
    simp [this]

/-! ## The scan of `bmm_alloc` -/

/-- A loop of `bmm_alloc` that starts at the cursor and runs for `fuel`
iterations below its limit finds the first clear bit among the next `fuel`
indices, or stops `fuel` indices further. -/
theorem alloc_scan_eq (limit : Nat) (hlimit : limit < U32) :
    ∀ (fuel : Nat) (s : mem_pool), s.index + fuel ≤ limit →
      alloc_scan limit fuel s
        = scan_result s ((List.range' s.index fuel).find? (fun i => !bit_is_set s.bitmap i))
            (s.index + fuel) := by
  intro fuel
  induction fuel with
  | zero =>
    intro s _
    simp [alloc_scan, scan_result]
  | succ n ih =>
    intro s hs
    have hlt : s.index < limit := by omega
    have hi : s.index < U32 := by omega
    have hi1 : (s.index + 1) % U32 = s.index + 1 := Nat.mod_eq_of_lt (by omega)
    rw [alloc_scan, if_pos hlt]
    simp only [byte_pos_eq s.index hi, bit_pos_eq, and_one_shiftLeft_eq_zero, hi1]
    rw [List.range'_succ, List.find?_cons]
    by_cases hb : bit_is_set s.bitmap s.index = true
    · have hb' : (s.bitmap (s.index / 32)).testBit (s.index % 32) = true := hb
      simp only [hb, hb', Bool.not_true]
      rw [if_neg (by simp)]
      have := ih { s with index := s.index + 1 } (by simp; omega)
      rw [this]
      simp only [scan_result]
      have e : s.index + 1 + n = s.index + (n + 1) := by omega
      rw [e]
      rfl
    · have hb0 : bit_is_set s.bitmap s.index = false := by simpa using hb
      have hb' : (s.bitmap (s.index / 32)).testBit (s.index % 32) = false := hb0
      simp only [hb0, hb', Bool.not_false, if_true]
      have e : (U32 - 1 + (s.index + 1)) % U32 = s.index := by
        simp only [U32] at hi ⊢; omega
      simp only [scan_result, block_addr, take_block, e]

/-- On a descriptor with a valid tag and the cursor within `0 .. block_num`,
`bmm_alloc` hands out the first clear block in the cyclic order that starts
at the cursor, and returns `NULL` without changing anything when there is
none. -/
theorem bmm_alloc_eq (s : mem_pool) (htag : s.tag = TAG) (hc : s.index ≤ s.block_num)
    (hn : s.block_num < U32) :
    bmm_alloc s = some (match first_clear s.bitmap s.index s.block_num with
      | some i => (block_addr s i, take_block s i)
      | none => (0, s)) := by
  have hc32 : s.index < U32 := by omega
  unfold bmm_alloc
  simp only [htag, ne_eq, not_true_eq_false, if_false]
  rw [alloc_scan_eq s.block_num hn _ s (by omega)]
  unfold first_clear cyclic_order
  rw [List.find?_append]
  cases h1 : (List.range' s.index (s.block_num - s.index)).find?
      (fun i => !bit_is_set s.bitmap i) with
  | some i => simp [scan_result]
  | none =>
    simp only [scan_result, Option.none_or]
    rw [alloc_scan_eq s.index hc32 _ _ (by simp)]
    rw [List.range_eq_range']
    cases h2 : (List.range' 0 s.index).find? (fun i => !bit_is_set s.bitmap i) with
    | some i =>
      simp only [h2, scan_result]
      rfl
    | none =>
      simp only [h2, scan_result, Nat.zero_add]

/-! ## The cyclic order and the first clear bit -/

theorem mem_cyclic_order {c n x : Nat} (hc : c ≤ n) : x ∈ cyclic_order c n ↔ x < n := by
  simp only [cyclic_order, List.mem_append, List.mem_range'_1, List.mem_range]
  omega

theorem first_clear_eq_none {bitmap : Nat → Nat} {c n : Nat} (hc : c ≤ n) :
    first_clear bitmap c n = none ↔ ∀ k, k < n → bit_is_set bitmap k = true := by
  unfold first_clear
  rw [List.find?_eq_none]
  constructor
  · intro h k hk
    have := h k ((mem_cyclic_order hc).2 hk)
    simpa using this
  · intro h k hk
    simp [h k ((mem_cyclic_order hc).1 hk)]

/-- What `first_clear` returns is the first index with a clear bit in the
order `c, c+1, ..., n-1, 0, 1, ..., c-1`. -/
theorem first_clear_eq_some {bitmap : Nat → Nat} {c n i : Nat} (hc : c ≤ n)
    (h : first_clear bitmap c n = some i) :
    i < n ∧ bit_is_set bitmap i = false ∧
      (c ≤ i → ∀ k, c ≤ k → k < i → bit_is_set bitmap k = true) ∧
      (i < c → (∀ k, c ≤ k → k < n → bit_is_set bitmap k = true) ∧
        ∀ k, k < i → bit_is_set bitmap k = true) := by
  unfold first_clear cyclic_order at h
  rw [List.find?_append] at h
  cases h1 : (List.range' c (n - c)).find? (fun i => !bit_is_set bitmap i) with
  | some j =>
    rw [h1] at h
    simp only [Option.or, Option.some.injEq] at h
    subst h
    rw [List.find?_range'_eq_some] at h1
    obtain ⟨hb, hm, hall⟩ := h1
    rw [List.mem_range'_1] at hm
    refine ⟨by omega, by simpa using hb, ?_, ?_⟩
    · intro _ k hk1 hk2
      simpa using hall k hk1 hk2
    · intro hlt
      omega
  | none =>
    rw [h1, Option.none_or, List.range_eq_range', List.find?_range'_eq_some] at h
    obtain ⟨hb, hm, hall⟩ := h
    rw [List.mem_range'_1] at hm
    rw [List.find?_eq_none] at h1
    refine ⟨by omega, by simpa using hb, ?_, ?_⟩
    · intro hci
      omega
    · intro _
      refine ⟨?_, ?_⟩
      · intro k hk1 hk2
        have := h1 k (by rw [List.mem_range'_1]; omega)
        simpa using this
      · intro k hk
        simpa using hall k (Nat.zero_le _) hk

/-! ## Counting set bits -/

theorem popcount_le (bitmap : Nat → Nat) (n : Nat) : popcount bitmap n ≤ n := by
  unfold popcount
  simpa using List.countP_le_length (bit_is_set bitmap) (l := List.range n)

theorem popcount_succ (bitmap : Nat → Nat) (n : Nat) :
    popcount bitmap (n + 1) = popcount bitmap n + (if bit_is_set bitmap n then 1 else 0) := by
  unfold popcount
  rw [List.range_succ, List.countP_append]
  simp [List.countP_cons]

theorem popcount_congr {f g : Nat → Nat} {n : Nat}
    (h : ∀ k, k < n → bit_is_set g k = bit_is_set f k) : popcount g n = popcount f n := by
  induction n with
  | zero => rfl
  | succ n ih =>
    rw [popcount_succ, popcount_succ, ih (fun k hk => h k (by omega)), h n (by omega)]

/-- Turning one clear bit below `n` into a set bit adds one to the count. -/
theorem popcount_flip {f g : Nat → Nat} {n i : Nat} (hi : i < n)
    (hf : bit_is_set f i = false) (hg : bit_is_set g i = true)
    (h : ∀ k, k ≠ i → bit_is_set g k = bit_is_set f k) :
    popcount g n = popcount f n + 1 := by
  induction n with
  | zero => omega
  | succ n ih =>
    rw [popcount_succ, popcount_succ]
    by_cases hin : i = n
    · subst hin
      rw [popcount_congr (fun k hk => h k (by omega)), hf, hg]
      simp
    · rw [ih (by omega), h n (fun e => hin e.symm)]
      omega

theorem popcount_eq_zero {bitmap : Nat → Nat} {n : Nat}
    (h : ∀ k, k < n → bit_is_set bitmap k = false) : popcount bitmap n = 0 := by
  induction n with
  | zero => rfl
  | succ n ih =>
    rw [popcount_succ, ih (fun k hk => h k (by omega)), h n (by omega)]
    simp

theorem popcount_lt_of_clear {bitmap : Nat → Nat} {n i : Nat} (hi : i < n)
    (h : bit_is_set bitmap i = false) : popcount bitmap n < n := by
  induction n with
  | zero => omega
  | succ n ih =>
    rw [popcount_succ]
    by_cases hin : i = n
    · subst hin
      have := popcount_le bitmap i
      simp [h]
      omega
    · have := ih (by omega)
      split <;> omega

/-! ## Initialised pools -/

theorem Inited.array_le {s : mem_pool} (hs : Inited s) :
    s.block_num * s.block_size ≤ s.mem_size := by
  rw [hs.block_num_eq]
  exact Nat.div_mul_le_self _ _

theorem Inited.block_num_lt {s : mem_pool} (hs : Inited s) : s.block_num < U32 := by
  have h1 := hs.mem_size_lt
  have h2 : s.block_num ≤ s.mem_size := by
    rw [hs.block_num_eq]
    exact Nat.div_le_self _ _
  omega

theorem Inited.num_free_le {s : mem_pool} (hs : Inited s) : s.num_free ≤ s.block_num := by
  have := hs.accounting
  omega

theorem block_end_le {s : mem_pool} {i : Nat} (hi : i < s.block_num) :
    i * s.block_size + s.block_size ≤ s.block_num * s.block_size := by
  have : (i + 1) * s.block_size ≤ s.block_num * s.block_size :=
    Nat.mul_le_mul_right _ hi
  rw [Nat.add_mul, Nat.one_mul] at this
  exact this

/-- In an initialised pool neither the 32-bit product nor the 64-bit sum of a
block address wraps. -/
theorem Inited.block_addr_eq {s : mem_pool} (hs : Inited s) {i : Nat} (hi : i < s.block_num) :
    block_addr s i = s.base + i * s.block_size := by
  have h1 := block_end_le hi
  have h2 := hs.array_le
  have h3 := hs.mem_size_lt
  have h4 := hs.fits
  have h5 := hs.block_size_pos
  unfold block_addr
  rw [Nat.mod_eq_of_lt (a := i * s.block_size) (by omega)]
  exact Nat.mod_eq_of_lt (by omega)

theorem Inited.block_addr_ne_zero {s : mem_pool} (hs : Inited s) {i : Nat}
    (hi : i < s.block_num) : block_addr s i ≠ 0 := by
  rw [hs.block_addr_eq hi]
  have := hs.base_pos
  omega

theorem Inited.num_free_pos {s : mem_pool} (hs : Inited s) {i : Nat} (hi : i < s.block_num)
    (hb : bit_is_set s.bitmap i = false) : 0 < s.num_free := by
  have h1 := popcount_lt_of_clear hi hb
  have h2 := hs.accounting
  omega

theorem take_block_bit (s : mem_pool) (i k : Nat) :
    bit_is_set (take_block s i).bitmap k = (decide (k = i) || bit_is_set s.bitmap k) :=
  bit_is_set_set s.bitmap i k

theorem Inited.take_block_num_free {s : mem_pool} (hs : Inited s) {i : Nat}
    (hi : i < s.block_num) (hb : bit_is_set s.bitmap i = false) :
    (take_block s i).num_free + 1 = s.num_free := by
  have h1 := hs.num_free_pos hi hb
  have h2 := hs.num_free_le
  have h3 := hs.block_num_lt
  have hU : U32 = 4294967296 := by norm_num [U32]
  show (U32 - 1 + s.num_free) % U32 + 1 = s.num_free
  rw [hU] at h3 ⊢
  omega

/-- Handing out a clear block keeps the pool initialised. -/
theorem Inited.take {s : mem_pool} (hs : Inited s) {i : Nat}
    (hi : i < s.block_num) (hb : bit_is_set s.bitmap i = false) :
    Inited (take_block s i) := by
  have hnf := hs.take_block_num_free hi hb
  have hpc : popcount (take_block s i).bitmap s.block_num
      = popcount s.bitmap s.block_num + 1 :=
    popcount_flip hi hb (by simp [take_block_bit])
      (fun k hk => by simp [take_block_bit, hk])
  have hacc := hs.accounting
  have hn : (take_block s i).block_num = s.block_num := rfl
  constructor
  · exact hs.tag_eq
  · exact hs.mem_size_lt
  · exact hs.block_size_pos
  · exact hs.block_num_eq
  · exact hs.block_num_pos
  · exact hs.base_pos
  · exact hs.fits
  · rw [hn]
    omega

/-- The result of `bmm_alloc` on an initialised pool whose cursor is within
`0 .. block_num`. -/
theorem Inited.alloc_eq {s : mem_pool} (hs : Inited s) (hc : s.index ≤ s.block_num) :
    bmm_alloc s = some (match first_clear s.bitmap s.index s.block_num with
      | some i => (s.base + i * s.block_size, take_block s i)
      | none => (0, s)) := by
  rw [Bmm.bmm_alloc_eq s hs.tag_eq hc hs.block_num_lt]
  cases h : first_clear s.bitmap s.index s.block_num with
  | none => rfl
  | some i =>
    have hi := (first_clear_eq_some hc h).1
    simp only [hs.block_addr_eq hi]

/-- C1: on an initialised pool whose cursor `c` is at most `block_num` and in
which some bit below `block_num` is clear, `bmm_alloc` returns
`base + i * block_size` for the first index `i` with a clear bit in the cyclic
order `c, ..., block_num-1, 0, ..., c-1`; it sets bit `i`, leaves every other
bit as it was and decreases `num_free` by exactly one; when block `j` is the
only free block, `i = j` whatever the cursor. -/
theorem bmm_alloc_first_clear (s : mem_pool) (hs : Inited s) (hc : s.index ≤ s.block_num)
    (hfree : ∃ j, j < s.block_num ∧ bit_is_set s.bitmap j = false) :
    ∃ i s', first_clear s.bitmap s.index s.block_num = some i ∧
      i < s.block_num ∧ bit_is_set s.bitmap i = false ∧
      (s.index ≤ i → ∀ k, s.index ≤ k → k < i → bit_is_set s.bitmap k = true) ∧
      (i < s.index → (∀ k, s.index ≤ k → k < s.block_num → bit_is_set s.bitmap k = true) ∧
        ∀ k, k < i → bit_is_set s.bitmap k = true) ∧
      bmm_alloc s = some (s.base + i * s.block_size, s') ∧
      bit_is_set s'.bitmap i = true ∧
      (∀ k, k ≠ i → bit_is_set s'.bitmap k = bit_is_set s.bitmap k) ∧
      s'.num_free + 1 = s.num_free ∧
      (∀ j, j < s.block_num →
        (∀ k, k < s.block_num → (bit_is_set s.bitmap k = false ↔ k = j)) → i = j) := by
  cases h : first_clear s.bitmap s.index s.block_num with
  | none =>
    obtain ⟨j, hj, hjb⟩ := hfree
    have := (first_clear_eq_none hc).1 h j hj
    rw [hjb] at this
    exact absurd this (by simp)
  | some i =>
    obtain ⟨hi, hb, hfwd, hwrap⟩ := first_clear_eq_some hc h
    refine ⟨i, take_block s i, rfl, hi, hb, hfwd, hwrap, ?_, ?_, ?_, ?_, ?_⟩
    · rw [hs.alloc_eq hc, h]
    · simp [take_block_bit]
    · intro k hk
      simp [take_block_bit, hk]
    · exact hs.take_block_num_free hi hb
    · intro j _ honly
      exact (honly i hi).1 hb

set_option maxRecDepth 100000 in
theorem pool_256_one_free_inited : Inited pool_256_one_free where
  tag_eq := rfl
  mem_size_lt := by norm_num [pool_256_one_free, U32]
  block_size_pos := by norm_num [pool_256_one_free]
  block_num_eq := by norm_num [pool_256_one_free]
  block_num_pos := by norm_num [pool_256_one_free]
  base_pos := by norm_num [pool_256_one_free]
  fits := by norm_num [pool_256_one_free, U64]
  accounting := by decide

set_option maxRecDepth 100000 in
theorem bmm_alloc_first_clear_witness :
    ∃ i s', first_clear pool_256_one_free.bitmap 256 256 = some i ∧
      i = 0 ∧ bmm_alloc pool_256_one_free = some (8192, s') ∧ s'.num_free = 0 := by
  obtain ⟨i, s', h1, _, _, _, _, h2, _, _, h3, h4⟩ :=
    bmm_alloc_first_clear pool_256_one_free pool_256_one_free_inited (by decide)
      ⟨0, by decide, by decide⟩
  have hi : i = 0 := by
    have : first_clear pool_256_one_free.bitmap 256 256 = some 0 := by decide
    rw [show pool_256_one_free.index = 256 from rfl,
      show pool_256_one_free.block_num = 256 from rfl, this] at h1
    exact (Option.some.inj h1).symm
  subst hi
  refine ⟨0, s', h1, rfl, ?_, ?_⟩
  · simpa using h2
  · have : pool_256_one_free.num_free = 1 := rfl
    omega

/-- C2: on an initialised pool whose cursor is at most `block_num`,
`bmm_alloc` returns `NULL` exactly when every bit `0 .. block_num-1` is set,
and a call that returns `NULL` leaves the whole descriptor and bitmap (so the
bitmap, `num_free` and the cursor) as they were. -/
theorem bmm_alloc_null_iff (s : mem_pool) (hs : Inited s) (hc : s.index ≤ s.block_num) :
    ∃ p s', bmm_alloc s = some (p, s') ∧
      (p = 0 ↔ ∀ k, k < s.block_num → bit_is_set s.bitmap k = true) ∧
      (p = 0 → s' = s ∧ s'.bitmap = s.bitmap ∧ s'.num_free = s.num_free ∧
        s'.index = s.index) := by
  cases h : first_clear s.bitmap s.index s.block_num with
  | none =>
    refine ⟨0, s, ?_, ?_, ?_⟩
    · rw [hs.alloc_eq hc, h]
    · simp only [true_iff]
      exact (first_clear_eq_none hc).1 h
    · intro _
      exact ⟨rfl, rfl, rfl, rfl⟩
  | some i =>
    obtain ⟨hi, hb, _, _⟩ := first_clear_eq_some hc h
    have hne : s.base + i * s.block_size ≠ 0 := by
      have := hs.base_pos
      omega
    refine ⟨s.base + i * s.block_size, take_block s i, ?_, ?_, ?_⟩
    · rw [hs.alloc_eq hc, h]
    · constructor
      · intro h0
        exact absurd h0 hne
      · intro hall
        have := hall i hi
        rw [hb] at this
        exact absurd this (by simp)
    · intro h0
      exact absurd h0 hne

theorem pool_4_full_inited : Inited pool_4_full where
  tag_eq := rfl
  mem_size_lt := by decide
  block_size_pos := by decide
  block_num_eq := by decide
  block_num_pos := by decide
  base_pos := by decide
  fits := by decide
  accounting := by decide

theorem bmm_alloc_null_iff_witness :
    Inited pool_4_full ∧ pool_4_full.index ≤ pool_4_full.block_num ∧
      ∃ p s', bmm_alloc pool_4_full = some (p, s') ∧
        (p = 0 ↔ ∀ k, k < pool_4_full.block_num → bit_is_set pool_4_full.bitmap k = true) ∧
        (p = 0 → s' = pool_4_full ∧ s'.bitmap = pool_4_full.bitmap ∧
          s'.num_free = pool_4_full.num_free ∧ s'.index = pool_4_full.index) :=
  ⟨pool_4_full_inited, by decide,
    bmm_alloc_null_iff pool_4_full pool_4_full_inited (by decide)⟩

/-! ## `bmm_free` on an initialised pool -/

theorem Inited.base_lt {s : mem_pool} (hs : Inited s) : s.base < U64 := by
  have h1 := hs.fits
  have h2 : 0 < s.block_num * s.block_size :=
    Nat.mul_pos hs.block_num_pos hs.block_size_pos
  omega

/-- For an address inside the block array `bmm_free` clears the bit of the
block that holds it and increments the free counter. -/
theorem Inited.free_eq {s : mem_pool} (hs : Inited s) {buf : Nat} (h1 : s.base ≤ buf)
    (h2 : buf < s.base + s.block_num * s.block_size) :
    bmm_free s buf = some (release_block s ((buf - s.base) / s.block_size), none) := by
  have hb := hs.base_lt
  have hfits := hs.fits
  have hbs := hs.block_size_pos
  have hn := hs.block_num_lt
  have hoff : (buf - s.base) / s.block_size < s.block_num := by
    rw [Nat.div_lt_iff_lt_mul hbs]
    omega
  have e1 : (buf + (U64 - s.base % U64)) % U64 = buf - s.base := by
    rw [Nat.mod_eq_of_lt hb]
    have : buf + (U64 - s.base) = (buf - s.base) + U64 := by omega
    rw [this, Nat.add_mod_right]
    exact Nat.mod_eq_of_lt (by omega)
  have hU : U32 < U64 := by decide
  have e2 : ((buf - s.base) / s.block_size + 1) % U64 = (buf - s.base) / s.block_size + 1 :=
    Nat.mod_eq_of_lt (by omega)
  unfold bmm_free
  simp only [hs.tag_eq, ne_eq, not_true_eq_false, if_false, Nat.ne_of_gt hbs, e1, e2,
    byte_pos_eq _ (lt_trans hoff hn), bit_pos_eq]
  rw [if_neg (by omega)]
  simp only [release_block, hs.tag_eq]

theorem release_block_bit (s : mem_pool) (off k : Nat) :
    bit_is_set (release_block s off).bitmap k = (decide (k ≠ off) && bit_is_set s.bitmap k) :=
  bit_is_set_clear s.bitmap off k

/-- C4 (amended): for an address anywhere inside the block array of an
initialised pool, `bmm_free` reports no error, clears the bit of block
`(buf - base) / block_size`, leaves every other bit and the cursor as they
were, and increments `num_free` as an `unsigned int`: the new value is
`(num_free + 1) mod 2 ^ 32`, which is `num_free + 1` unless `num_free` was
`2 ^ 32 - 1`. A double free leaves the bitmap as it was and still increments
the counter. -/
theorem bmm_free_in_range (s : mem_pool) (hs : Inited s) (buf : Nat) (h1 : s.base ≤ buf)
    (h2 : buf < s.base + s.block_num * s.block_size) :
    ∃ s', bmm_free s buf = some (s', none) ∧
      (buf - s.base) / s.block_size < s.block_num ∧
      bit_is_set s'.bitmap ((buf - s.base) / s.block_size) = false ∧
      (∀ k, k ≠ (buf - s.base) / s.block_size →
        bit_is_set s'.bitmap k = bit_is_set s.bitmap k) ∧
      s'.index = s.index ∧
      s'.num_free = (s.num_free + 1) % U32 ∧
      (s.num_free + 1 < U32 → s'.num_free = s.num_free + 1) ∧
      (bit_is_set s.bitmap ((buf - s.base) / s.block_size) = false →
        ∀ k, bit_is_set s'.bitmap k = bit_is_set s.bitmap k) := by
  have hoff : (buf - s.base) / s.block_size < s.block_num := by
    rw [Nat.div_lt_iff_lt_mul hs.block_size_pos]
    omega
  refine ⟨release_block s ((buf - s.base) / s.block_size), hs.free_eq h1 h2, hoff,
    ?_, ?_, rfl, rfl, ?_, ?_⟩
  · simp [release_block_bit]
  · intro k hk
    simp [release_block_bit, hk]
  · intro h
    exact Nat.mod_eq_of_lt h
  · intro hclr k
    rw [release_block_bit]
    by_cases hk : k = (buf - s.base) / s.block_size
    · subst hk
      simp [hclr]
    · simp [hk]

theorem pool_8_inited : Inited pool_8 where
  tag_eq := rfl
  mem_size_lt := by decide
  block_size_pos := by decide
  block_num_eq := by decide
  block_num_pos := by decide
  base_pos := by decide
  fits := by decide
  accounting := by decide

theorem bmm_free_in_range_witness :
    ∃ s', bmm_free pool_8 4171 = some (s', none) ∧ s'.num_free = 6 ∧
      bit_is_set s'.bitmap 1 = false ∧ s'.index = 5 := by
  obtain ⟨s', h, _, hb, _, hi, _, hn, _⟩ :=
    bmm_free_in_range pool_8 pool_8_inited 4171 (by decide) (by decide)
  exact ⟨s', h, hn (by decide), hb, hi⟩

theorem pool_max_inited : Inited pool_max where
  tag_eq := rfl
  mem_size_lt := by decide
  block_size_pos := by decide
  block_num_eq := by decide
  block_num_pos := by decide
  base_pos := by decide
  fits := by decide
  accounting := by
    have : popcount pool_max.bitmap pool_max.block_num = 0 :=
      popcount_eq_zero (fun k _ => by simp [bit_is_set, pool_max])
    rw [this]
    rfl

/-- C4, counterexample: the freshly initialised pool with `2 ^ 32 - 1` blocks
of one byte has `num_free = 2 ^ 32 - 1`; freeing its first block address takes
`num_free` to `0`, not to `num_free + 1`. -/
theorem bmm_free_num_free_wraps :
    bmm_init zero_region 4096 4294967295 1 1 = some (0, pool_max) ∧
      Inited pool_max ∧
      pool_max.base ≤ 536875057 ∧
      536875057 < pool_max.base + pool_max.block_num * pool_max.block_size ∧
      pool_max.num_free = 4294967295 ∧
      (bmm_free pool_max 536875057).map (fun r => (r.1.num_free, r.2)) = some (0, none) :=
  ⟨rfl, pool_max_inited, by decide, by decide, rfl, rfl⟩

/-- C5, failing input: in the pool that `bmm_init` builds at address 4096 for
`mem_size = 64`, `block_size = 1`, `align_size = 1` (base 4153, 64 blocks),
`bmm_free` of the address `base - 1 = 4152` stores nothing to `errno` and
takes `num_free` from 64 to 65. -/
theorem bmm_free_below_base_accepted :
    (bmm_init zero_region 4096 64 1 1).map
        (fun r => (r.1, r.2.base, r.2.block_num, r.2.block_size, r.2.num_free,
          (bmm_free r.2 4152).map (fun q => (q.1.num_free, q.2))))
      = some (0, 4153, 64, 1, 64, some (65, none)) := by
  rfl

/-- An address outside the block array is rejected with `EINVAL` and nothing
changes, except for the address `base - 1` in a pool of one-byte blocks. -/
theorem Inited.free_reject {s : mem_pool} (hs : Inited s) {buf : Nat} (hbuf : buf < U64)
    (hout : buf < s.base ∨ s.base + s.block_num * s.block_size ≤ buf)
    (hslip : ¬(s.block_size = 1 ∧ buf + 1 = s.base)) :
    bmm_free s buf = some (s, some EINVAL) := by
  have hb := hs.base_lt
  have hfits := hs.fits
  have hbs := hs.block_size_pos
  have hbp := hs.base_pos
  have hn := hs.block_num_lt
  have hU : U32 < U64 := by decide
  have key : ∀ d, (buf + (U64 - s.base % U64)) % U64 = d →
      s.block_num * s.block_size ≤ d → d / s.block_size + 1 < U64 →
      bmm_free s buf = some (s, some EINVAL) := by
    intro d hd h1 h2
    have h3 : s.block_num ≤ d / s.block_size := (Nat.le_div_iff_mul_le hbs).2 h1
    unfold bmm_free
    simp only [hd, Nat.mod_eq_of_lt h2]
    rw [if_neg (by simp [hs.tag_eq]), if_neg (Nat.ne_of_gt hbs), if_pos (by omega)]
  rw [Nat.mod_eq_of_lt hb] at key
  rcases hout with hlt | hge
  · have hd : (buf + (U64 - s.base)) % U64 = buf + (U64 - s.base) :=
      Nat.mod_eq_of_lt (by omega)
    refine key _ hd (by omega) ?_
    by_cases h1 : s.block_size = 1
    · rw [h1, Nat.div_one]
      have : buf + 1 ≠ s.base := fun h => hslip ⟨h1, h⟩
      omega
    · have h2 : 2 ≤ s.block_size := by omega
      have h3 : (buf + (U64 - s.base)) / s.block_size ≤ (buf + (U64 - s.base)) / 2 :=
        Nat.div_le_div_left h2 (by norm_num)
      have hU64 : U64 = 18446744073709551616 := rfl
      omega
  · have hd : (buf + (U64 - s.base)) % U64 = buf - s.base := by
      have : buf + (U64 - s.base) = (buf - s.base) + U64 := by omega
      rw [this, Nat.add_mod_right]
      exact Nat.mod_eq_of_lt (by omega)
    refine key _ hd (by omega) ?_
    have := Nat.div_le_self (buf - s.base) s.block_size
    omega

/-- Giving back a block whose bit is set keeps the pool initialised. -/
theorem Inited.release {s : mem_pool} (hs : Inited s) {k : Nat} (hk : k < s.block_num)
    (hb : bit_is_set s.bitmap k = true) : Inited (release_block s k) := by
  have hpc : popcount s.bitmap s.block_num
      = popcount (release_block s k).bitmap s.block_num + 1 :=
    popcount_flip hk (by simp [release_block_bit]) hb
      (fun j hj => by simp [release_block_bit, hj])
  have hacc := hs.accounting
  have hn := hs.block_num_lt
  have hnf : (release_block s k).num_free = s.num_free + 1 := by
    show (s.num_free + 1) % U32 = s.num_free + 1
    exact Nat.mod_eq_of_lt (by omega)
  have hbn : (release_block s k).block_num = s.block_num := rfl
  constructor
  · exact hs.tag_eq
  · exact hs.mem_size_lt
  · exact hs.block_size_pos
  · exact hs.block_num_eq
  · exact hs.block_num_pos
  · exact hs.base_pos
  · exact hs.fits
  · rw [hbn, hnf]
    omega

theorem block_addr_inj {s : mem_pool} (hs : Inited s) {i k : Nat}
    (h : s.base + i * s.block_size = s.base + k * s.block_size) : i = k := by
  have h1 : i * s.block_size = k * s.block_size := by omega
  exact Nat.eq_of_mul_eq_mul_right hs.block_size_pos h1

theorem block_offset {s : mem_pool} (hs : Inited s) (k : Nat) :
    (s.base + k * s.block_size - s.base) / s.block_size = k := by
  rw [Nat.add_sub_cancel_left]
  exact Nat.mul_div_cancel _ hs.block_size_pos

/-- `bmm_alloc` keeps `Live`. -/
theorem Live.alloc {p s s' : mem_pool} {live : List Nat} {a : Nat} (h : Live p s live)
    (ha : bmm_alloc s = some (a, s')) : Live p s' (if a = 0 then live else a :: live) := by
  rw [h.inited.alloc_eq h.cursor] at ha
  cases hf : first_clear s.bitmap s.index s.block_num with
  | none =>
    rw [hf] at ha
    simp only [Option.some.injEq, Prod.mk.injEq] at ha
    obtain ⟨ha0, hs'⟩ := ha
    subst ha0 hs'
    simpa using h
  | some i =>
    rw [hf] at ha
    simp only [Option.some.injEq, Prod.mk.injEq] at ha
    obtain ⟨ha0, hs'⟩ := ha
    subst ha0 hs'
    obtain ⟨hi, hb, _, _⟩ := first_clear_eq_some h.cursor hf
    have hne : s.base + i * s.block_size ≠ 0 := by
      have := h.inited.base_pos
      omega
    rw [if_neg hne]
    refine ⟨h.inited.take hi hb, ?_, h.base_eq, h.block_size_eq, h.block_num_eq, ?_, ?_⟩
    · show i + 1 ≤ s.block_num
      omega
    · intro x hx
      rcases List.mem_cons.1 hx with hx | hx
      · exact ⟨i, hi, hx, by simp [take_block_bit]⟩
      · obtain ⟨k, hk, hxk, hkb⟩ := h.blocks x hx
        exact ⟨k, hk, hxk, by simp [take_block_bit, hkb]⟩
    · refine List.nodup_cons.2 ⟨?_, h.nodup⟩
      intro hmem
      obtain ⟨k, _, hxk, hkb⟩ := h.blocks _ hmem
      have := block_addr_inj h.inited hxk
      subst this
      rw [hb] at hkb
      exact absurd hkb (by simp)

/-- `bmm_free` of a live address keeps `Live`. -/
theorem Live.free {p s s' : mem_pool} {live : List Nat} {buf : Nat} {e : Option Nat}
    (h : Live p s live) (hbuf : buf ∈ live) (hfree : bmm_free s buf = some (s', e)) :
    Live p s' (live.erase buf) ∧ e = none := by
  obtain ⟨k, hk, hxk, hkb⟩ := h.blocks buf hbuf
  have hend := block_end_le (s := s) hk
  have hbs := h.inited.block_size_pos
  rw [h.inited.free_eq (by omega) (by omega)] at hfree
  simp only [Option.some.injEq, Prod.mk.injEq] at hfree
  obtain ⟨hs', he⟩ := hfree
  subst hs'
  refine ⟨?_, he.symm⟩
  rw [hxk, block_offset h.inited k]
  refine ⟨h.inited.release hk hkb, h.cursor, h.base_eq, h.block_size_eq, h.block_num_eq,
    ?_, h.nodup.erase _⟩
  intro x hx
  rw [h.nodup.mem_erase_iff] at hx
  obtain ⟨hne, hx⟩ := hx
  obtain ⟨j, hj, hxj, hjb⟩ := h.blocks x hx
  have hjk : j ≠ k := by
    intro hjk
    subst hjk
    exact hne hxj
  exact ⟨j, hj, hxj, by simp [release_block_bit, hjk, hjb]⟩

theorem Reach.live {p s : mem_pool} {live : List Nat} (hp : Live p p [])
    (hr : Reach p s live) : Live p s live := by
  induction hr with
  | start => exact hp
  | alloc _ ha ih => exact ih.alloc ha
  | free _ hbuf hfree ih => exact (ih.free hbuf hfree).1

/-! ## `bmm_init` -/

/-- The test `n & (n - 1)` of `bmm_init` vanishes exactly on the powers of
two. -/
theorem and_pred_eq_zero_iff : ∀ n : Nat, 0 < n → (n &&& (n - 1) = 0 ↔ ∃ k, n = 2 ^ k) := by
  intro n
  induction n using Nat.strong_induction_on with
  | _ n ih =>
    intro hn
    constructor
    · intro h
      have h2 : n / 2 &&& (n - 1) / 2 = 0 := by
        rw [← Nat.and_div_two, h]
      rcases Nat.mod_two_eq_zero_or_one n with hpar | hpar
      · have hm : 0 < n / 2 := by omega
        have e : (n - 1) / 2 = n / 2 - 1 := by omega
        rw [e] at h2
        obtain ⟨k, hk⟩ := (ih (n / 2) (by omega) hm).1 h2
        refine ⟨k + 1, ?_⟩
        rw [pow_succ, ← hk]
        omega
      · have e : (n - 1) / 2 = n / 2 := by omega
        rw [e, Nat.and_self] at h2
        exact ⟨0, by omega⟩
    · rintro ⟨k, rfl⟩
      rw [Nat.and_pow_two_sub_one_eq_mod, Nat.mod_self]

theorem pred32 {n : Nat} (h0 : 0 < n) (h : n < U32) : (U32 - 1 + n) % U32 = n - 1 := by
  have hU : U32 = 4294967296 := rfl
  rw [hU] at h ⊢
  omega

/-- The four ways `bmm_init` can end, with what each of them leaves in the
region. -/
theorem bmm_init_cases (region : mem_pool) (addr_base mem_size block_size align_size : Nat) :
    (bmm_init region addr_base mem_size block_size align_size = some (EINVAL, region) ∧
      (align_size = 0 ∨ align_size &&& ((U32 - 1 + align_size) % U32) ≠ 0 ∨
        addr_base &&& ((U32 - 1 + align_size) % U32) ≠ 0)) ∨
    (¬(align_size = 0 ∨ align_size &&& ((U32 - 1 + align_size) % U32) ≠ 0 ∨
        addr_base &&& ((U32 - 1 + align_size) % U32) ≠ 0) ∧
      ((bmm_init region addr_base mem_size block_size align_size = some (ENOMEM, region) ∧
          mem_size ≤ ALIGN block_size align_size) ∨
        (bmm_init region addr_base mem_size block_size align_size = none ∧
          ALIGN block_size align_size = 0 ∧ 0 < mem_size) ∨
        (∃ p, bmm_init region addr_base mem_size block_size align_size = some (0, p) ∧
          0 < ALIGN block_size align_size ∧ ALIGN block_size align_size < mem_size ∧
          p.tag = TAG ∧ p.mem_size = mem_size ∧ p.block_size = ALIGN block_size align_size ∧
          p.block_num = mem_size / ALIGN block_size align_size ∧
          p.num_free = p.block_num ∧ p.index = 0 ∧
          p.bitmap_addr = (p.base + (sizeof_mem_pool + 1)) % U64 ∧
          ∀ w, w < (((U32 - 1 + p.block_num) % U32 / BITS_OF_U32 + 1) % U32
              * sizeof_unsigned_int) % U32 / sizeof_unsigned_int → p.bitmap w = 0))) := by
  unfold bmm_init
  by_cases h1 : align_size = 0 ∨ align_size &&& ((U32 - 1 + align_size) % U32) ≠ 0
  · left
    rw [if_pos h1]
    exact ⟨rfl, by tauto⟩
  · rw [if_neg h1]
    by_cases h2 : addr_base &&& ((U32 - 1 + align_size) % U32) ≠ 0
    · left
      rw [if_pos h2]
      exact ⟨rfl, by tauto⟩
    · right
      rw [if_neg h2]
      refine ⟨by tauto, ?_⟩
      by_cases h3 : mem_size ≤ ALIGN block_size align_size
      · left
        simp only [h3, if_true]
        exact ⟨trivial, trivial⟩
      · right
        by_cases h4 : ALIGN block_size align_size = 0
        · left
          have h3' : ¬mem_size ≤ 0 := by
            rw [h4] at h3
            exact h3
          refine ⟨?_, h4, by omega⟩
          simp only [h4, h3', if_false, if_true]
        · right
          simp only [h3, h4, if_false]
          refine ⟨_, rfl, by omega, by omega, rfl, rfl, rfl, rfl, rfl, rfl, rfl, ?_⟩
          intro w hw
          simp only
          rw [if_pos hw]

theorem invalid_iff (addr_base : Nat) {align_size : Nat} (hal : align_size < U32) :
    (align_size = 0 ∨ align_size &&& ((U32 - 1 + align_size) % U32) ≠ 0 ∨
        addr_base &&& ((U32 - 1 + align_size) % U32) ≠ 0) ↔
      (align_size = 0 ∨ (¬∃ k, align_size = 2 ^ k) ∨ ¬align_size ∣ addr_base) := by
  by_cases h0 : align_size = 0
  · simp [h0]
  · have hpos : 0 < align_size := Nat.pos_of_ne_zero h0
    rw [pred32 hpos hal]
    by_cases hp : ∃ k, align_size = 2 ^ k
    · have hz := (and_pred_eq_zero_iff align_size hpos).2 hp
      obtain ⟨k, rfl⟩ := hp
      have hd : addr_base &&& (2 ^ k - 1) ≠ 0 ↔ ¬2 ^ k ∣ addr_base := by
        rw [Nat.and_pow_two_sub_one_eq_mod, Nat.dvd_iff_mod_eq_zero]
      simp only [h0, hz, ne_eq, not_true_eq_false, false_or, hd]
      constructor
      · intro h
        exact Or.inr h
      · rintro (h | h)
        · exact absurd ⟨k, rfl⟩ h
        · exact h
    · have hz : align_size &&& (align_size - 1) ≠ 0 :=
        fun h => hp ((and_pred_eq_zero_iff align_size hpos).1 h)
      constructor
      · intro _
        exact Or.inr (Or.inl hp)
      · intro _
        exact Or.inr (Or.inl hz)

/-- The number of bitmap words that `bmm_init` zeroes is `(n - 1) / 32 + 1`. -/
theorem bitmap_words {n : Nat} (h0 : 0 < n) (h : n < U32) :
    (((U32 - 1 + n) % U32 / BITS_OF_U32 + 1) % U32 * sizeof_unsigned_int) % U32
        / sizeof_unsigned_int = (n - 1) / 32 + 1 := by
  rw [pred32 h0 h]
  have hU : U32 = 4294967296 := rfl
  simp only [BITS_OF_U32, sizeof_unsigned_int]
  rw [hU] at h ⊢
  omega

/-- What a successful `bmm_init` leaves in the descriptor and the bitmap. -/
theorem bmm_init_ok {region : mem_pool} {addr_base mem_size block_size align_size : Nat}
    {p : mem_pool} (hm : mem_size < U32)
    (h : bmm_init region addr_base mem_size block_size align_size = some (0, p)) :
    p.tag = TAG ∧ p.num_free = p.block_num ∧ p.index = 0 ∧ 1 ≤ p.block_num ∧
      ∀ i, i < p.block_num → bit_is_set p.bitmap i = false := by
  rcases bmm_init_cases region addr_base mem_size block_size align_size with
    ⟨h1, _⟩ | ⟨_, ⟨h1, _⟩ | ⟨h1, _⟩ | ⟨q, h1, hpos, hlt, htag, _, _, hnum, hfree, hidx, _, hbits⟩⟩
  · rw [h1] at h
    exact absurd h (by simp [EINVAL])
  · rw [h1] at h
    exact absurd h (by simp [ENOMEM])
  · rw [h1] at h
    exact absurd h (by simp)
  · rw [h1] at h
    simp only [Option.some.injEq, Prod.mk.injEq, true_and] at h
    subst h
    have hn1 : 1 ≤ q.block_num := by
      rw [hnum]
      exact Nat.div_pos (le_of_lt hlt) hpos
    have hn2 : q.block_num < U32 := by
      rw [hnum]
      exact lt_of_le_of_lt (Nat.div_le_self _ _) hm
    refine ⟨htag, hfree, hidx, hn1, ?_⟩
    intro i hi
    rw [bitmap_words hn1 hn2] at hbits
    have : q.bitmap (i / 32) = 0 := hbits _ (by omega)
    simp [bit_is_set, this]

/-- C6: when `bmm_init` returns 0 the descriptor has the tag `TAG`,
`num_free = block_num`, the cursor 0, at least one block, and every bit
`0 .. block_num-1` of the bitmap is clear. -/
theorem bmm_init_success (region : mem_pool) (addr_base mem_size block_size align_size : Nat)
    (p : mem_pool) (hm : mem_size < U32)
    (h : bmm_init region addr_base mem_size block_size align_size = some (0, p)) :
    p.tag = TAG ∧ p.num_free = p.block_num ∧ p.index = 0 ∧ 1 ≤ p.block_num ∧
      ∀ i, i < p.block_num → bit_is_set p.bitmap i = false :=
  bmm_init_ok hm h

theorem bmm_init_pool_256 : bmm_init zero_region 4096 1048576 4096 4096 = some (0, pool_256) :=
  rfl

theorem bmm_init_success_witness :
    pool_256.tag = TAG ∧ pool_256.num_free = pool_256.block_num ∧ pool_256.index = 0 ∧
      1 ≤ pool_256.block_num ∧ ∀ i, i < pool_256.block_num → bit_is_set pool_256.bitmap i = false :=
  bmm_init_success zero_region 4096 1048576 4096 4096 pool_256 (by decide) bmm_init_pool_256

/-- C7: `bmm_init` returns `EINVAL` exactly when `align_size` is 0, or is not
a power of two, or does not divide `addr_base`; and then the region is left as
it was. -/
theorem bmm_init_einval_iff (region : mem_pool)
    (addr_base mem_size block_size align_size : Nat) (hal : align_size < U32) :
    ((∃ r, bmm_init region addr_base mem_size block_size align_size = some (EINVAL, r)) ↔
        (align_size = 0 ∨ (¬∃ k, align_size = 2 ^ k) ∨ ¬align_size ∣ addr_base)) ∧
      ∀ r, bmm_init region addr_base mem_size block_size align_size = some (EINVAL, r) →
        r = region := by
  rw [← invalid_iff addr_base hal]
  rcases bmm_init_cases region addr_base mem_size block_size align_size with
    ⟨h1, hc⟩ | ⟨hc, ⟨h1, _⟩ | ⟨h1, _⟩ | ⟨q, h1, _⟩⟩
  · rw [h1]
    refine ⟨⟨fun _ => hc, fun _ => ⟨region, rfl⟩⟩, ?_⟩
    intro r hr
    simp only [Option.some.injEq, Prod.mk.injEq, true_and] at hr
    exact hr.symm
  · rw [h1]
    refine ⟨⟨?_, fun h => absurd h hc⟩, ?_⟩
    · rintro ⟨r, hr⟩
      exact absurd hr (by simp [EINVAL, ENOMEM])
    · intro r hr
      exact absurd hr (by simp [EINVAL, ENOMEM])
  · rw [h1]
    refine ⟨⟨?_, fun h => absurd h hc⟩, ?_⟩
    · rintro ⟨r, hr⟩
      exact absurd hr (by simp)
    · intro r hr
      exact absurd hr (by simp)
  · rw [h1]
    refine ⟨⟨?_, fun h => absurd h hc⟩, ?_⟩
    · rintro ⟨r, hr⟩
      exact absurd hr (by simp [EINVAL])
    · intro r hr
      exact absurd hr (by simp [EINVAL])

theorem bmm_init_einval_iff_witness :
    4096 < U32 ∧ ∃ r, bmm_init zero_region 4100 1048576 4096 4096 = some (EINVAL, r) :=
  ⟨by decide,
    (bmm_init_einval_iff zero_region 4100 1048576 4096 4096 (by decide)).1.2
      (Or.inr (Or.inr (by decide)))⟩

/-- With a valid alignment, `bmm_init` returns `ENOMEM` exactly when
`mem_size` is at most the effective block size, and returns 0 when `mem_size`
is greater and the effective block size is not 0. -/
theorem bmm_init_enomem_iff (region : mem_pool)
    (addr_base mem_size block_size align_size : Nat) (hal : align_size < U32)
    (hpow : ∃ k, align_size = 2 ^ k) (hdvd : align_size ∣ addr_base) :
    ((∃ r, bmm_init region addr_base mem_size block_size align_size = some (ENOMEM, r)) ↔
        mem_size ≤ ALIGN block_size align_size) ∧
      (∀ r, bmm_init region addr_base mem_size block_size align_size = some (ENOMEM, r) →
        r = region) ∧
      (ALIGN block_size align_size < mem_size → ALIGN block_size align_size ≠ 0 →
        ∃ p, bmm_init region addr_base mem_size block_size align_size = some (0, p)) := by
  have hvalid : ¬(align_size = 0 ∨ align_size &&& ((U32 - 1 + align_size) % U32) ≠ 0 ∨
      addr_base &&& ((U32 - 1 + align_size) % U32) ≠ 0) := by
    rw [invalid_iff addr_base hal]
    rintro (h | h | h)
    · obtain ⟨k, hk⟩ := hpow
      rw [h] at hk
      exact absurd hk.symm (by positivity)
    · exact h hpow
    · exact h hdvd
  rcases bmm_init_cases region addr_base mem_size block_size align_size with
    ⟨_, hc⟩ | ⟨_, ⟨h1, h2⟩ | ⟨h1, h2, h3⟩ | ⟨q, h1, h2, h3, _⟩⟩
  · exact absurd hc hvalid
  · rw [h1]
    refine ⟨⟨fun _ => h2, fun _ => ⟨region, rfl⟩⟩, ?_, fun h => absurd h2 (by omega)⟩
    intro r hr
    simp only [Option.some.injEq, Prod.mk.injEq, true_and] at hr
    exact hr.symm
  · rw [h1]
    refine ⟨⟨?_, fun h => by omega⟩, ?_, fun _ h => absurd h2 h⟩
    · rintro ⟨r, hr⟩
      exact absurd hr (by simp)
    · intro r hr
      exact absurd hr (by simp)
  · rw [h1]
    refine ⟨⟨?_, fun h => by omega⟩, ?_, fun _ _ => ⟨q, rfl⟩⟩
    · rintro ⟨r, hr⟩
      exact absurd hr (by simp [ENOMEM])
    · intro r hr
      exact absurd hr (by simp [ENOMEM])

/-- C8, failing input: for `addr_base = 4096`, `mem_size = 1`, `block_size = 0`,
`align_size = 1` the alignment is a power of two, the base is aligned, the
effective block size is 0 and `mem_size` is greater, and `bmm_init` returns
neither 0 nor `ENOMEM`: it divides by the effective block size 0. -/
theorem bmm_init_zero_block_size :
    1 = 2 ^ 0 ∧ 1 ∣ 4096 ∧ ALIGN 0 1 = 0 ∧ ALIGN 0 1 < 1 ∧
      bmm_init zero_region 4096 1 0 1 = none :=
  ⟨rfl, by decide, by decide, by decide, rfl⟩

/-- C9, failing input: for `addr_base = 4096`, `mem_size = 256 * 4096`,
`block_size = 4096`, `align_size = 4096`, `bmm_init` returns 0 with
`base = 8192` and `block_num = 256`; the block array ends at 1056768, past the
end 1052672 of the region. -/
theorem bmm_init_blocks_past_region :
    (bmm_init zero_region 4096 1048576 4096 4096).map
        (fun r => (r.1, r.2.base, r.2.block_num, r.2.block_size))
      = some (0, 8192, 256, 4096) ∧
      ¬(8192 + 256 * 4096 ≤ 4096 + 1048576) :=
  ⟨rfl, by decide⟩

/-- C10, failing input: for `addr_base = 4096`, `mem_size = 256 * 4096`,
`block_size = 4096`, `align_size = 4096`, `bmm_init` returns 0 with
`base = 8192` and the bitmap pointer `base + 49 = 8241`; the 32 bytes of the
bitmap do not end at or before `base`, they lie inside the block array. -/
theorem bmm_init_bitmap_in_blocks :
    (bmm_init zero_region 4096 1048576 4096 4096).map
        (fun r => (r.1, r.2.base, r.2.bitmap_addr, r.2.block_num, r.2.block_size))
      = some (0, 8192, 8241, 256, 4096) ∧
      ((256 - 1) / 32 + 1) * 4 = 32 ∧
      ¬(8241 + 32 ≤ 8192) ∧
      8192 ≤ 8241 ∧ 8241 + 32 ≤ 8192 + 256 * 4096 :=
  ⟨rfl, by decide, by decide, by decide, by decide⟩

/-- A pool that `bmm_init` has just built is initialised, provided its block
array lies in the address space and does not start at `NULL`. -/
theorem bmm_init_inited {region : mem_pool} {addr_base mem_size block_size align_size : Nat}
    {p : mem_pool} (hm : mem_size < U32)
    (h : bmm_init region addr_base mem_size block_size align_size = some (0, p))
    (hbase : 0 < p.base) (hfits : p.base + p.block_num * p.block_size ≤ U64) :
    Inited p ∧ p.index = 0 := by
  obtain ⟨htag, hfree, hidx, hn1, hbits⟩ :=
    bmm_init_ok hm h
  rcases bmm_init_cases region addr_base mem_size block_size align_size with
    ⟨h1, _⟩ | ⟨_, ⟨h1, _⟩ | ⟨h1, _⟩ | ⟨q, h1, hpos, hlt, _, hms, hbs, hnum, _⟩⟩
  · rw [h1] at h
    exact absurd h (by simp [EINVAL])
  · rw [h1] at h
    exact absurd h (by simp [ENOMEM])
  · rw [h1] at h
    exact absurd h (by simp)
  · rw [h1] at h
    simp only [Option.some.injEq, Prod.mk.injEq, true_and] at h
    subst h
    refine ⟨⟨htag, by rw [hms]; exact hm, by rw [hbs]; exact hpos, by rw [hnum, hms, hbs],
      hn1, hbase, hfits, ?_⟩, hidx⟩
    rw [popcount_eq_zero hbits, hfree, Nat.add_zero]

/-- C3: take a pool built by a successful `bmm_init` whose block array lies in
the address space, and any state reached from it by calls of `bmm_alloc` and
`bmm_free`, the latter on addresses currently allocated only. Every address
handed out and not freed since is `base + k * block_size` for a block
`k < block_num` whose bit is set, and these addresses are pairwise distinct;
the next `bmm_alloc` returns, and when its result is not `NULL` it is
`base + k * block_size` with `k < block_num`, lies in
`[base, base + block_num * block_size)`, bit `k` is set afterwards, and it
differs from every address currently allocated. -/
theorem alloc_addresses (region : mem_pool) (addr_base mem_size block_size align_size : Nat)
    (p : mem_pool) (hm : mem_size < U32)
    (hinit : bmm_init region addr_base mem_size block_size align_size = some (0, p))
    (hbase : 0 < p.base) (hfits : p.base + p.block_num * p.block_size ≤ U64)
    (s : mem_pool) (live : List Nat) (hr : Reach p s live) :
    (∀ x, x ∈ live → ∃ k, k < p.block_num ∧ x = p.base + k * p.block_size ∧
        bit_is_set s.bitmap k = true) ∧
      live.Nodup ∧
      ∃ a s', bmm_alloc s = some (a, s') ∧
        (a ≠ 0 →
          (∃ k, k < p.block_num ∧ a = p.base + k * p.block_size ∧
            bit_is_set s'.bitmap k = true) ∧
          p.base ≤ a ∧ a < p.base + p.block_num * p.block_size ∧ a ∉ live) := by
  obtain ⟨hp, hidx⟩ := bmm_init_inited hm hinit hbase hfits
  have hstart : Live p p [] :=
    ⟨hp, by rw [hidx]; exact Nat.zero_le _, rfl, rfl, rfl, by simp, List.nodup_nil⟩
  have hl : Live p s live := hr.live hstart
  have hblocks : ∀ x, x ∈ live → ∃ k, k < p.block_num ∧ x = p.base + k * p.block_size ∧
      bit_is_set s.bitmap k = true := by
    intro x hx
    obtain ⟨k, hk, hxk, hkb⟩ := hl.blocks x hx
    rw [hl.block_num_eq] at hk
    rw [hl.base_eq, hl.block_size_eq] at hxk
    exact ⟨k, hk, hxk, hkb⟩
  refine ⟨hblocks, hl.nodup, ?_⟩
  cases hf : first_clear s.bitmap s.index s.block_num with
  | none =>
    refine ⟨0, s, ?_, fun h => absurd rfl h⟩
    rw [hl.inited.alloc_eq hl.cursor, hf]
  | some i =>
    obtain ⟨hi, hb, _, _⟩ := first_clear_eq_some hl.cursor hf
    refine ⟨s.base + i * s.block_size, take_block s i, ?_, fun _ => ⟨?_, ?_, ?_, ?_⟩⟩
    · rw [hl.inited.alloc_eq hl.cursor, hf]
    · refine ⟨i, by rw [← hl.block_num_eq]; exact hi, by rw [hl.base_eq, hl.block_size_eq], ?_⟩
      simp [take_block_bit]
    · rw [hl.base_eq]
      exact Nat.le_add_right _ _
    · have := block_end_le (s := s) hi
      have hbs := hl.inited.block_size_pos
      rw [← hl.base_eq, ← hl.block_num_eq, ← hl.block_size_eq]
      omega
    · intro hmem
      obtain ⟨k, _, hxk, hkb⟩ := hl.blocks _ hmem
      have := block_addr_inj hl.inited hxk
      subst this
      rw [hb] at hkb
      exact absurd hkb (by simp)

theorem alloc_addresses_witness :
    ∃ a s', bmm_alloc (take_block pool_256 0) = some (a, s') ∧
      (a ≠ 0 → a ∉ [8192]) :=
  have hr : Reach pool_256 (take_block pool_256 0) [8192] :=
    Reach.alloc (a := 8192) Reach.start rfl
  have h := alloc_addresses zero_region 4096 1048576 4096 4096 pool_256 (by decide) rfl
    (by decide) (by decide) (take_block pool_256 0) [8192] hr
  match h with
  | ⟨_, _, a, s', h1, h2⟩ => ⟨a, s', h1, fun ha => (h2 ha).2.2.2⟩

set_option maxRecDepth 1000000 in
/-- The scenario of 256 blocks of 4096 bytes: 256 calls of `bmm_alloc` on the
fresh pool succeed, the first of them returns 8192 and they leave
`num_free = 0` with the cursor at 256; `bmm_free` of 8192 then gives
`num_free = 1` without error, and the next `bmm_alloc` returns 8192 again. -/
theorem scenario_256 :
    ((alloc_many 256 pool_256).bind (fun r =>
      (bmm_free r.2 8192).bind (fun f =>
        (bmm_alloc f.1).map (fun g =>
          (r.1.getLast?, r.2.num_free, r.2.index, f.1.num_free, f.2, g.1, g.2.num_free)))))
      = some (some 8192, 0, 256, 1, none, 8192, 0) := by
  rfl

/-! ## `ALIGN` -/

theorem testBit_eq_false_of_lt_U32 {y i : Nat} (hy : y < U32) (hi : 32 ≤ i) :
    y.testBit i = false := by
  apply Nat.testBit_eq_false_of_lt
  rw [U32_eq] at hy
  exact lt_of_lt_of_le hy (Nat.pow_le_pow_right (by norm_num) hi)

theorem testBit_div_pow (y k j : Nat) : (y / 2 ^ k).testBit j = y.testBit (k + j) := by
  rw [← Nat.shiftRight_eq_div_pow, Nat.testBit_shiftRight]

/-- Masking a 32-bit value with `~(2 ^ k - 1)` rounds it down to a multiple
of `2 ^ k`. -/
theorem and_not_mask {y k : Nat} (hy : y < U32) (hk : k ≤ 32) :
    y &&& ((U32 - 1) ^^^ (2 ^ k - 1)) = y - y % 2 ^ k := by
  have e : y - y % 2 ^ k = 2 ^ k * (y / 2 ^ k) := by
    have := Nat.div_add_mod y (2 ^ k)
    omega
  rw [e]
  apply Nat.eq_of_testBit_eq
  intro i
  rw [Nat.testBit_and, Nat.testBit_xor, U32_eq, Nat.testBit_two_pow_sub_one,
    Nat.testBit_two_pow_sub_one, Nat.testBit_mul_pow_two]
  by_cases h1 : i < k
  · have h2 : i < 32 := by omega
    have h3 : ¬k ≤ i := by omega
    simp [h1, h2, h3]
  · by_cases h2 : i < 32
    · have h3 : k ≤ i := by omega
      have h5 : (y / 2 ^ k).testBit (i - k) = y.testBit i := by
        rw [testBit_div_pow, Nat.add_sub_cancel' h3]
      simp [h1, h2, h3, h5]
    · have h3 : k ≤ i := by omega
      have h4 : y.testBit i = false := testBit_eq_false_of_lt_U32 hy (by omega)
      have h5 : (y / 2 ^ k).testBit (i - k) = false := by
        rw [testBit_div_pow, Nat.add_sub_cancel' h3]
        exact h4
      simp [h1, h2, h3, h4, h5]

theorem pow_lt_U32 {k : Nat} (h : 2 ^ k < U32) : k < 32 := by
  rw [U32_eq] at h
  exact (Nat.pow_lt_pow_iff_right (by norm_num)).1 h

/-- The value of `ALIGN(x, 2 ^ k)`: the 32-bit sum `x + (2 ^ k - 1)` rounded
down to a multiple of `2 ^ k`. -/
theorem ALIGN_eq (x : Nat) {k : Nat} (hk : 2 ^ k < U32) :
    ALIGN x (2 ^ k)
      = (x + (2 ^ k - 1)) % U32 - (x + (2 ^ k - 1)) % U32 % 2 ^ k := by
  have hpos : 0 < 2 ^ k := by positivity
  unfold ALIGN __ALIGN_MASK
  rw [pred32 hpos hk]
  exact and_not_mask (Nat.mod_lt _ (by decide)) (le_of_lt (pow_lt_U32 hk))

theorem ALIGN_dvd (x : Nat) {k : Nat} (hk : 2 ^ k < U32) : 2 ^ k ∣ ALIGN x (2 ^ k) := by
  rw [ALIGN_eq x hk]
  exact Nat.dvd_sub_mod _

/-- C11 (amended): for a power of two `align_size` and a `block_size` whose
sum `block_size + align_size - 1` fits an `unsigned int`, `ALIGN` yields the
least multiple of `align_size` that is at least `block_size`, which is less
than `block_size + align_size`; when the sum does not fit, `ALIGN` yields 0. -/
theorem ALIGN_least_multiple (block_size align_size : Nat) (hb : block_size < U32)
    (ha : align_size < U32) (hpow : ∃ k, align_size = 2 ^ k) :
    (block_size + align_size - 1 < U32 →
      align_size ∣ ALIGN block_size align_size ∧
      block_size ≤ ALIGN block_size align_size ∧
      ALIGN block_size align_size < block_size + align_size ∧
      ∀ m, align_size ∣ m → block_size ≤ m → ALIGN block_size align_size ≤ m) ∧
    (U32 ≤ block_size + align_size - 1 → ALIGN block_size align_size = 0) := by
  obtain ⟨k, rfl⟩ := hpow
  have hpos : 0 < 2 ^ k := by positivity
  have hU : U32 = 4294967296 := rfl
  rw [ALIGN_eq block_size ha]
  constructor
  · intro hfit
    have e : (block_size + (2 ^ k - 1)) % U32 = block_size + (2 ^ k - 1) :=
      Nat.mod_eq_of_lt (by omega)
    rw [e]
    have hm := Nat.mod_lt (block_size + (2 ^ k - 1)) hpos
    refine ⟨Nat.dvd_sub_mod _, by omega, by omega, ?_⟩
    rintro m ⟨c, rfl⟩ hle
    have h1 : block_size + (2 ^ k - 1) - (block_size + (2 ^ k - 1)) % 2 ^ k
        = 2 ^ k * ((block_size + (2 ^ k - 1)) / 2 ^ k) := by
      have := Nat.div_add_mod (block_size + (2 ^ k - 1)) (2 ^ k)
      omega
    rw [h1]
    apply Nat.mul_le_mul_left
    rw [Nat.div_le_iff_le_mul_add_pred hpos]
    rw [Nat.mul_comm] at hle
    rw [Nat.mul_comm]
    omega
  · intro hwrap
    have e : (block_size + (2 ^ k - 1)) % U32 = block_size + (2 ^ k - 1) - U32 := by
      rw [hU] at hb ha hwrap ⊢
      omega
    rw [e]
    have hsmall : block_size + (2 ^ k - 1) - U32 < 2 ^ k := by omega
    rw [Nat.mod_eq_of_lt hsmall]
    exact Nat.sub_self _

theorem ALIGN_least_multiple_witness :
    4096 ∣ ALIGN 5000 4096 ∧ 5000 ≤ ALIGN 5000 4096 ∧ ALIGN 5000 4096 < 5000 + 4096 ∧
      ∀ m, 4096 ∣ m → 5000 ≤ m → ALIGN 5000 4096 ≤ m :=
  (ALIGN_least_multiple 5000 4096 (by decide) (by decide) ⟨12, by decide⟩).1 (by decide)

/-- C11, counterexample: `block_size = 0xFFFFFFF1` with `align_size = 16`
gives the effective block size 0, which is not at least `block_size`. -/
theorem ALIGN_wraps_to_zero :
    4294967281 < U32 ∧ 16 = 2 ^ 4 ∧ ALIGN 4294967281 16 = 0 ∧
      ¬(4294967281 ≤ ALIGN 4294967281 16) := by
  decide

/-! ## Fields that no call changes -/

theorem same_geometry_refl (s : mem_pool) : same_geometry s s :=
  ⟨rfl, rfl, rfl, rfl, rfl⟩

theorem same_geometry_trans {s t u : mem_pool} (h1 : same_geometry s t)
    (h2 : same_geometry t u) : same_geometry s u := by
  obtain ⟨a1, a2, a3, a4, a5⟩ := h1
  obtain ⟨b1, b2, b3, b4, b5⟩ := h2
  exact ⟨b1.trans a1, b2.trans a2, b3.trans a3, b4.trans a4, b5.trans a5⟩

theorem alloc_scan_frame (limit : Nat) :
    ∀ (fuel : Nat) (s : mem_pool), same_geometry s (alloc_scan limit fuel s).2 := by
  intro fuel
  induction fuel with
  | zero =>
    intro s
    exact same_geometry_refl s
  | succ n ih =>
    intro s
    rw [alloc_scan]
    split
    · dsimp only
      split
      · exact same_geometry_refl s
      · exact ih { s with index := (s.index + 1) % U32 }
    · exact same_geometry_refl s

/-- `bmm_alloc` changes none of `tag`, `base`, `mem_size`, `block_size`,
`block_num`, whatever it returns. -/
theorem bmm_alloc_frame {s s' : mem_pool} {a : Nat} (h : bmm_alloc s = some (a, s')) :
    same_geometry s s' := by
  unfold bmm_alloc at h
  have f1 := alloc_scan_frame s.block_num (s.block_num - s.index) s
  have f2 := fun t : mem_pool => alloc_scan_frame s.index s.index { t with index := 0 }
  simp only at h
  split at h
  · exact absurd h (by simp)
  · split at h
    · rename_i p t heq
      simp only [Option.some.injEq, Prod.mk.injEq] at h
      rw [heq] at f1
      rw [← h.2]
      exact f1
    · rename_i t heq
      rw [heq] at f1
      have f3 := f2 t
      split at h
      · rename_i p u heq2
        simp only [Option.some.injEq, Prod.mk.injEq] at h
        rw [heq2] at f3
        rw [← h.2]
        exact same_geometry_trans f1 f3
      · rename_i u heq2
        simp only [Option.some.injEq, Prod.mk.injEq] at h
        rw [heq2] at f3
        rw [← h.2]
        exact same_geometry_trans f1 f3

/-- `bmm_free` changes none of `tag`, `base`, `mem_size`, `block_size`,
`block_num` and leaves the cursor, whatever the address. -/
theorem bmm_free_frame {s s' : mem_pool} {buf : Nat} {e : Option Nat}
    (h : bmm_free s buf = some (s', e)) : same_geometry s s' ∧ s'.index = s.index := by
  unfold bmm_free at h
  simp only at h
  split at h
  · exact absurd h (by simp)
  · split at h
    · exact absurd h (by simp)
    · split at h
      · simp only [Option.some.injEq, Prod.mk.injEq] at h
        rw [← h.1]
        exact ⟨same_geometry_refl s, rfl⟩
      · simp only [Option.some.injEq, Prod.mk.injEq] at h
        rw [← h.1]
        exact ⟨same_geometry_refl s, rfl⟩

/-- A descriptor with the tag `TAG` passes the assertion of `bmm_alloc`. -/
theorem bmm_alloc_returns {s : mem_pool} (h : s.tag = TAG) : ∃ r, bmm_alloc s = some r := by
  unfold bmm_alloc
  simp only [h, ne_eq, not_true_eq_false, if_false]
  split
  · exact ⟨_, rfl⟩
  · split
    · exact ⟨_, rfl⟩
    · exact ⟨_, rfl⟩

/-- A descriptor with the tag `TAG` and a block size other than 0 passes the
assertion of `bmm_free`, and the division is defined. -/
theorem bmm_free_returns {s : mem_pool} (h : s.tag = TAG) (hbs : s.block_size ≠ 0)
    (buf : Nat) : ∃ r, bmm_free s buf = some r := by
  unfold bmm_free
  simp only [h, ne_eq, not_true_eq_false, if_false, hbs]
  split
  · exact ⟨_, rfl⟩
  · exact ⟨_, rfl⟩

theorem ReachAny.frame {p s : mem_pool} (h : ReachAny p s) : same_geometry p s := by
  induction h with
  | start => exact same_geometry_refl p
  | alloc _ ha ih => exact same_geometry_trans ih (bmm_alloc_frame ha)
  | free _ hf ih => exact same_geometry_trans ih (bmm_free_frame hf).1

/-- The geometry that a successful `bmm_init` writes. -/
theorem bmm_init_geometry {region : mem_pool} {addr_base mem_size block_size align_size : Nat}
    {p : mem_pool}
    (h : bmm_init region addr_base mem_size block_size align_size = some (0, p)) :
    p.tag = TAG ∧ p.mem_size = mem_size ∧ p.block_size = ALIGN block_size align_size ∧
      p.block_num = mem_size / ALIGN block_size align_size ∧
      0 < ALIGN block_size align_size ∧ ALIGN block_size align_size < mem_size ∧
      p.index = 0 ∧ p.num_free = p.block_num ∧
      ¬(align_size = 0 ∨ align_size &&& ((U32 - 1 + align_size) % U32) ≠ 0 ∨
        addr_base &&& ((U32 - 1 + align_size) % U32) ≠ 0) := by
  rcases bmm_init_cases region addr_base mem_size block_size align_size with
    ⟨h1, _⟩ | ⟨hv, ⟨h1, _⟩ | ⟨h1, _⟩ | ⟨q, h1, hpos, hlt, htag, hms, hbs, hnum, hfree, hidx, _⟩⟩
  · rw [h1] at h
    exact absurd h (by simp [EINVAL])
  · rw [h1] at h
    exact absurd h (by simp [ENOMEM])
  · rw [h1] at h
    exact absurd h (by simp)
  · rw [h1] at h
    simp only [Option.some.injEq, Prod.mk.injEq, true_and] at h
    subst h
    exact ⟨htag, hms, hbs, hnum, hpos, hlt, hidx, hfree, hv⟩

/-- C17: `bmm_init` sets `block_num = mem_size / block_size` with the
effective block size; no call of `bmm_alloc` or `bmm_free`, whatever it
returns, changes `tag`, `base`, `mem_size`, `block_size` or `block_num`; so
every state reached from a successful `bmm_init` has the tag `TAG` and
`block_num = mem_size / block_size`, and there `bmm_alloc` and `bmm_free`
pass their assertion and return. -/
theorem descriptor_frame (region : mem_pool) (addr_base mem_size block_size align_size : Nat)
    (p : mem_pool)
    (hinit : bmm_init region addr_base mem_size block_size align_size = some (0, p)) :
    p.mem_size = mem_size ∧ p.block_size = ALIGN block_size align_size ∧
      p.block_num = p.mem_size / p.block_size ∧
      (∀ (s s' : mem_pool) (a : Nat), bmm_alloc s = some (a, s') → same_geometry s s') ∧
      (∀ (s s' : mem_pool) (buf : Nat) (e : Option Nat),
        bmm_free s buf = some (s', e) → same_geometry s s') ∧
      ∀ s, ReachAny p s →
        s.tag = TAG ∧ s.block_num = s.mem_size / s.block_size ∧ same_geometry p s ∧
          (∃ r, bmm_alloc s = some r) ∧ ∀ buf, ∃ r, bmm_free s buf = some r := by
  obtain ⟨htag, hms, hbs, hnum, hpos, _, _, _, _⟩ := bmm_init_geometry hinit
  refine ⟨hms, hbs, by rw [hnum, hms, hbs], fun s s' a h => bmm_alloc_frame h,
    fun s s' buf e h => (bmm_free_frame h).1, ?_⟩
  intro s hr
  have hg := hr.frame
  obtain ⟨g1, _, g3, g4, g5⟩ := id hg
  have ht : s.tag = TAG := g1.trans htag
  refine ⟨ht, by rw [g5, g3, g4, hnum, hms, hbs], hg, bmm_alloc_returns ht,
    bmm_free_returns ht ?_⟩
  rw [g4, hbs]
  exact Nat.pos_iff_ne_zero.1 hpos

theorem descriptor_frame_witness :
    pool_256.mem_size = 1048576 ∧ pool_256.block_size = ALIGN 4096 4096 ∧
      pool_256.block_num = pool_256.mem_size / pool_256.block_size ∧
      (take_block pool_256 0).tag = TAG ∧
      (take_block pool_256 0).block_num
        = (take_block pool_256 0).mem_size / (take_block pool_256 0).block_size :=
  have h := descriptor_frame zero_region 4096 1048576 4096 4096 pool_256 rfl
  have hr : ReachAny pool_256 (take_block pool_256 0) :=
    ReachAny.alloc (a := 8192) ReachAny.start rfl
  ⟨h.1, h.2.1, h.2.2.1, (h.2.2.2.2.2 _ hr).1, (h.2.2.2.2.2 _ hr).2.1⟩

/-! ## The cursor -/

theorem Geom.count_lt {s : mem_pool} (hs : Geom s) : s.block_num < U32 := by
  have h1 := hs.mem_size_lt
  have h2 : s.block_num ≤ s.mem_size := by
    rw [hs.block_num_eq]
    exact Nat.div_le_self _ _
  omega

theorem Geom.alloc_result {s : mem_pool} (hs : Geom s) :
    bmm_alloc s = some (match first_clear s.bitmap s.index s.block_num with
      | some i => (block_addr s i, take_block s i)
      | none => (0, s)) :=
  bmm_alloc_eq s hs.tag_eq hs.cursor hs.count_lt

theorem Geom.of_same {s s' : mem_pool} (hs : Geom s) (h : same_geometry s s')
    (hc : s'.index ≤ s'.block_num) : Geom s' := by
  obtain ⟨g1, _, g3, g4, g5⟩ := h
  exact ⟨g1.trans hs.tag_eq, by rw [g3]; exact hs.mem_size_lt,
    by rw [g4]; exact hs.block_size_pos, by rw [g5, g3, g4]; exact hs.block_num_eq,
    by rw [g5]; exact hs.block_num_pos, hc⟩

theorem Geom.after_alloc {s s' : mem_pool} {a : Nat} (hs : Geom s)
    (h : bmm_alloc s = some (a, s')) : Geom s' := by
  refine hs.of_same (bmm_alloc_frame h) ?_
  rw [hs.alloc_result] at h
  cases hf : first_clear s.bitmap s.index s.block_num with
  | none =>
    rw [hf] at h
    simp only [Option.some.injEq, Prod.mk.injEq] at h
    rw [← h.2]
    exact hs.cursor
  | some i =>
    rw [hf] at h
    simp only [Option.some.injEq, Prod.mk.injEq] at h
    rw [← h.2]
    have hi := (first_clear_eq_some hs.cursor hf).1
    show i + 1 ≤ s.block_num
    omega

theorem Geom.after_free {s s' : mem_pool} {buf : Nat} {e : Option Nat} (hs : Geom s)
    (h : bmm_free s buf = some (s', e)) : Geom s' := by
  obtain ⟨hg, hi⟩ := bmm_free_frame h
  refine hs.of_same hg ?_
  rw [hi, hg.2.2.2.2]
  exact hs.cursor

theorem bmm_init_geom {region : mem_pool} {addr_base mem_size block_size align_size : Nat}
    {p : mem_pool} (hm : mem_size < U32)
    (h : bmm_init region addr_base mem_size block_size align_size = some (0, p)) :
    Geom p := by
  obtain ⟨htag, hms, hbs, hnum, hpos, hlt, hidx, _, _⟩ := bmm_init_geometry h
  refine ⟨htag, by rw [hms]; exact hm, by rw [hbs]; exact hpos, by rw [hnum, hms, hbs], ?_,
    by rw [hidx]; exact Nat.zero_le _⟩
  rw [hnum]
  exact Nat.div_pos (le_of_lt hlt) hpos

theorem ReachAny.geom {p s : mem_pool} (hp : Geom p) (h : ReachAny p s) : Geom s := by
  induction h with
  | start => exact hp
  | alloc _ ha ih => exact ih.after_alloc ha
  | free _ hf ih => exact ih.after_free hf

/-- C14 (amended): in every state reached from a successful `bmm_init` by
calls of `bmm_alloc` and `bmm_free` the cursor is at most `block_num`; a
`bmm_alloc` that hands out block `i` leaves the cursor at `i + 1`, which is
`block_num` and not 0 when `i` is the last block, and a `bmm_alloc` that
returns `NULL` leaves the cursor as it was. -/
theorem cursor_after_alloc (region : mem_pool) (addr_base mem_size block_size align_size : Nat)
    (p : mem_pool) (hm : mem_size < U32)
    (hinit : bmm_init region addr_base mem_size block_size align_size = some (0, p))
    (s : mem_pool) (hr : ReachAny p s) :
    s.index ≤ s.block_num ∧
      (∀ i, first_clear s.bitmap s.index s.block_num = some i →
        ∃ s', bmm_alloc s = some (block_addr s i, s') ∧ i < s.block_num ∧
          bit_is_set s'.bitmap i = true ∧ s'.index = i + 1 ∧ s'.index ≤ s'.block_num) ∧
      (first_clear s.bitmap s.index s.block_num = none → bmm_alloc s = some (0, s)) := by
  have hs : Geom s := hr.geom (bmm_init_geom hm hinit)
  refine ⟨hs.cursor, ?_, ?_⟩
  · intro i hf
    have hi := (first_clear_eq_some hs.cursor hf).1
    refine ⟨take_block s i, ?_, hi, ?_, rfl, ?_⟩
    · rw [hs.alloc_result, hf]
    · simp [take_block_bit]
    · show i + 1 ≤ s.block_num
      omega
  · intro hf
    rw [hs.alloc_result, hf]

theorem cursor_after_alloc_witness :
    pool_256.index ≤ pool_256.block_num ∧
      ∃ s', bmm_alloc pool_256 = some (block_addr pool_256 0, s') ∧ s'.index = 0 + 1 :=
  have h := cursor_after_alloc zero_region 4096 1048576 4096 4096 pool_256 (by decide) rfl
    pool_256 ReachAny.start
  match h.2.1 0 (by decide) with
  | ⟨s', h1, _, _, h2, _⟩ => ⟨h.1, s', h1, h2⟩

/-- C14, counterexample: the pool of 4 blocks of 16 bytes built at address
4096; the fourth `bmm_alloc` hands out block 3 (address 4208) and leaves the
cursor at 4, which is `block_num` and not `(3 + 1) mod 4 = 0`. -/
theorem cursor_reaches_block_num :
    (bmm_init zero_region 4096 64 16 16).bind
        (fun r => (alloc_many 4 r.2).map
          (fun q => (r.1, r.2.base, q.1, q.2.index, q.2.block_num)))
      = some (0, 4160, [4208, 4192, 4176, 4160], 4, 4) ∧
      4208 = 4160 + 3 * 16 ∧ (3 + 1) % 4 = 0 ∧ ¬(4 < 4) :=
  ⟨rfl, by decide, by decide, by decide⟩

/-! ## Alignment of the block array -/

theorem bitmap_sz_eq {n : Nat} (h0 : 0 < n) (h : n < U32) :
    (((U32 - 1 + n) % U32 / BITS_OF_U32 + 1) % U32 * sizeof_unsigned_int) % U32
      = ((n - 1) / 32 + 1) * 4 := by
  rw [pred32 h0 h]
  have hU : U32 = 4294967296 := rfl
  simp only [BITS_OF_U32, sizeof_unsigned_int]
  rw [hU] at h ⊢
  omega

/-- The base that a successful `bmm_init` stores. -/
theorem bmm_init_base {region : mem_pool} {addr_base mem_size block_size align_size : Nat}
    {p : mem_pool}
    (h : bmm_init region addr_base mem_size block_size align_size = some (0, p)) :
    p.base = ((((addr_base + sizeof_mem_pool
        + (((U32 - 1 + p.block_num) % U32 / BITS_OF_U32 + 1) % U32 * sizeof_unsigned_int) % U32)
          % U64) / align_size + 1) % U64 * align_size) % U64 := by
  unfold bmm_init at h
  split at h
  · exact absurd h (by simp [EINVAL])
  · split at h
    · exact absurd h (by simp [EINVAL])
    · dsimp only at h
      split at h
      · exact absurd h (by simp [ENOMEM])
      · split at h
        · exact absurd h (by simp)
        · simp only [Option.some.injEq, Prod.mk.injEq, true_and] at h
          rw [← h]

theorem pow_dvd_U32 {k : Nat} (h : 2 ^ k < U32) : 2 ^ k ∣ U32 := by
  rw [U32_eq]
  exact pow_dvd_pow 2 (le_of_lt (pow_lt_U32 h))

theorem pow_dvd_U64 {k : Nat} (h : 2 ^ k < U32) : 2 ^ k ∣ U64 := by
  rw [U64_eq]
  exact pow_dvd_pow 2 (le_trans (le_of_lt (pow_lt_U32 h)) (by norm_num))

/-- A block address is a multiple of a power of two that divides the base and
the block size, also when the 32-bit product or the 64-bit sum wraps. -/
theorem dvd_block_addr {s : mem_pool} {k : Nat} (hk : 2 ^ k < U32) (h1 : 2 ^ k ∣ s.base)
    (h2 : 2 ^ k ∣ s.block_size) (i : Nat) : 2 ^ k ∣ block_addr s i := by
  unfold block_addr
  rw [Nat.dvd_mod_iff (pow_dvd_U64 hk)]
  apply Nat.dvd_add h1
  rw [Nat.dvd_mod_iff (pow_dvd_U32 hk)]
  exact Dvd.dvd.mul_left h2 i

/-- C12: after a successful `bmm_init` on a region whose header, bitmap and
alignment gap lie in the address space, the stored base is a multiple of
`align_size` and is at least `addr_base + sizeof(struct mem_pool) + bitmap_sz`,
the stored block size is a multiple of `align_size`, and every address that
`bmm_alloc` returns in a state reached afterwards is a multiple of
`align_size`. -/
theorem aligned_layout (region : mem_pool) (addr_base mem_size block_size align_size : Nat)
    (p : mem_pool) (hm : mem_size < U32) (ha : align_size < U32)
    (hinit : bmm_init region addr_base mem_size block_size align_size = some (0, p))
    (hspace : addr_base + sizeof_mem_pool + ((p.block_num - 1) / 32 + 1) * 4 + align_size
      < U64) :
    align_size ∣ p.base ∧
      addr_base + sizeof_mem_pool + ((p.block_num - 1) / 32 + 1) * 4 ≤ p.base ∧
      align_size ∣ p.block_size ∧
      ∀ s, ReachAny p s → ∀ a s', bmm_alloc s = some (a, s') → align_size ∣ a := by
  have hg := bmm_init_geom hm hinit
  obtain ⟨_, _, hbs, _, _, _, _, _, hv⟩ := bmm_init_geometry hinit
  rw [invalid_iff addr_base ha] at hv
  have hpow : ∃ k, align_size = 2 ^ k := by
    by_contra hc
    exact hv (Or.inr (Or.inl hc))
  obtain ⟨k, rfl⟩ := hpow
  have hpos : 0 < 2 ^ k := by positivity
  have hbase := bmm_init_base hinit
  rw [bitmap_sz_eq hg.block_num_pos hg.count_lt] at hbase
  generalize addr_base + sizeof_mem_pool + ((p.block_num - 1) / 32 + 1) * 4 = X at hbase hspace
  have hq : X / 2 ^ k * 2 ^ k ≤ X := Nat.div_mul_le_self X (2 ^ k)
  have hlt : X < 2 ^ k * (X / 2 ^ k + 1) := Nat.lt_mul_div_succ X hpos
  have hmul : (X / 2 ^ k + 1) * 2 ^ k = X / 2 ^ k * 2 ^ k + 2 ^ k := by
    rw [Nat.add_mul, Nat.one_mul]
  have hqle : X / 2 ^ k ≤ X := Nat.div_le_self _ _
  rw [Nat.mod_eq_of_lt (a := X) (by omega),
    Nat.mod_eq_of_lt (a := X / 2 ^ k + 1) (by omega),
    Nat.mod_eq_of_lt (a := (X / 2 ^ k + 1) * 2 ^ k) (by omega)] at hbase
  have hdb : 2 ^ k ∣ p.base := by
    rw [hbase]
    exact Nat.dvd_mul_left _ _
  have hds : 2 ^ k ∣ p.block_size := by
    rw [hbs]
    exact ALIGN_dvd block_size ha
  refine ⟨hdb, ?_, hds, ?_⟩
  · rw [hbase, Nat.mul_comm]
    exact le_of_lt hlt
  · intro s hr a s' hall
    have hs := hr.geom hg
    obtain ⟨_, g2, _, g4, _⟩ := hr.frame
    rw [hs.alloc_result] at hall
    cases hf : first_clear s.bitmap s.index s.block_num with
    | none =>
      rw [hf] at hall
      simp only [Option.some.injEq, Prod.mk.injEq] at hall
      rw [← hall.1]
      exact Nat.dvd_zero _
    | some i =>
      rw [hf] at hall
      simp only [Option.some.injEq, Prod.mk.injEq] at hall
      rw [← hall.1]
      exact dvd_block_addr ha (by rw [g2]; exact hdb) (by rw [g4]; exact hds) i

theorem aligned_layout_witness :
    4096 ∣ pool_256.base ∧
      4096 + sizeof_mem_pool + ((pool_256.block_num - 1) / 32 + 1) * 4 ≤ pool_256.base ∧
      4096 ∣ pool_256.block_size ∧
      ∀ s, ReachAny pool_256 s → ∀ a s', bmm_alloc s = some (a, s') → 4096 ∣ a :=
  aligned_layout zero_region 4096 1048576 4096 4096 pool_256 (by decide) (by decide) rfl
    (by decide)

/-! ## The accounting invariant -/

/-- A call of `bmm_free` that stores to `errno` stores `EINVAL` and changes
nothing. -/
theorem bmm_free_rejected {s s' : mem_pool} {buf e : Nat}
    (h : bmm_free s buf = some (s', some e)) : s' = s ∧ e = EINVAL := by
  unfold bmm_free at h
  simp only at h
  split at h
  · exact absurd h (by simp)
  · split at h
    · exact absurd h (by simp)
    · split at h
      · simp only [Option.some.injEq, Prod.mk.injEq] at h
        exact ⟨h.1.symm, h.2.symm⟩
      · simp only [Option.some.injEq, Prod.mk.injEq] at h
        exact absurd h.2 (by simp)

/-- The words that `bmm_init` zeroes: all of the bitmap. -/
theorem bmm_init_words {region : mem_pool} {addr_base mem_size block_size align_size : Nat}
    {p : mem_pool} (hm : mem_size < U32)
    (h : bmm_init region addr_base mem_size block_size align_size = some (0, p)) :
    ∀ w, w < (p.block_num - 1) / 32 + 1 → p.bitmap w = 0 := by
  have hg := bmm_init_geom hm h
  rcases bmm_init_cases region addr_base mem_size block_size align_size with
    ⟨h1, _⟩ | ⟨_, ⟨h1, _⟩ | ⟨h1, _⟩ | ⟨q, h1, _, _, _, _, _, _, _, _, _, hbits⟩⟩
  · rw [h1] at h
    exact absurd h (by simp [EINVAL])
  · rw [h1] at h
    exact absurd h (by simp [ENOMEM])
  · rw [h1] at h
    exact absurd h (by simp)
  · rw [h1] at h
    simp only [Option.some.injEq, Prod.mk.injEq, true_and] at h
    subst h
    rw [bitmap_words hg.block_num_pos hg.count_lt] at hbits
    exact hbits

theorem bmm_init_P {region : mem_pool} {addr_base mem_size block_size align_size : Nat}
    {p : mem_pool} (hm : mem_size < U32)
    (h : bmm_init region addr_base mem_size block_size align_size = some (0, p)) :
    P_inv p := by
  have hw := bmm_init_words hm h
  have hg := bmm_init_geom hm h
  obtain ⟨_, hfree, _, _, hbits⟩ := bmm_init_ok hm h
  refine ⟨hg.cursor, by rw [popcount_eq_zero hbits, hfree, Nat.add_zero], ?_⟩
  intro k _ hk
  have : p.bitmap (k / 32) = 0 := hw _ (by omega)
  simp [bit_is_set, this]

theorem P_inv.after_take {s : mem_pool} (hs : Inited s) (hp : P_inv s) {i : Nat}
    (hi : i < s.block_num) (hb : bit_is_set s.bitmap i = false) :
    P_inv (take_block s i) := by
  refine ⟨?_, (hs.take hi hb).accounting, ?_⟩
  · show i + 1 ≤ s.block_num
    omega
  · intro k hk1 hk2
    have hne : k ≠ i := by
      have : s.block_num ≤ k := hk1
      omega
    rw [take_block_bit]
    simp only [hne, decide_False, Bool.false_or]
    exact hp.no_stray k hk1 hk2

theorem P_inv.after_release {s : mem_pool} (hs : Inited s) (hp : P_inv s) {k : Nat}
    (hk : k < s.block_num) (hb : bit_is_set s.bitmap k = true) :
    P_inv (release_block s k) := by
  refine ⟨hp.cursor, (hs.release hk hb).accounting, ?_⟩
  intro j hj1 hj2
  rw [release_block_bit, hp.no_stray j hj1 hj2, Bool.and_false]

/-- `bmm_alloc` keeps an initialised pool initialised and keeps `P`. -/
theorem alloc_keeps {s s' : mem_pool} {a : Nat} (hs : Inited s) (hp : P_inv s)
    (h : bmm_alloc s = some (a, s')) : Inited s' ∧ P_inv s' := by
  rw [hs.alloc_eq hp.cursor] at h
  cases hf : first_clear s.bitmap s.index s.block_num with
  | none =>
    rw [hf] at h
    simp only [Option.some.injEq, Prod.mk.injEq] at h
    rw [← h.2]
    exact ⟨hs, hp⟩
  | some i =>
    rw [hf] at h
    simp only [Option.some.injEq, Prod.mk.injEq] at h
    rw [← h.2]
    obtain ⟨hi, hb, _, _⟩ := first_clear_eq_some hp.cursor hf
    exact ⟨hs.take hi hb, hp.after_take hs hi hb⟩

/-- `bmm_free` of an address inside a block whose bit is set keeps an
initialised pool initialised and keeps `P`. -/
theorem free_set_keeps {s s' : mem_pool} {buf : Nat} {e : Option Nat} (hs : Inited s)
    (hp : P_inv s) (h1 : s.base ≤ buf) (h2 : buf < s.base + s.block_num * s.block_size)
    (hb : bit_is_set s.bitmap ((buf - s.base) / s.block_size) = true)
    (h : bmm_free s buf = some (s', e)) : Inited s' ∧ P_inv s' := by
  have hoff : (buf - s.base) / s.block_size < s.block_num := by
    rw [Nat.div_lt_iff_lt_mul hs.block_size_pos]
    omega
  rw [hs.free_eq h1 h2] at h
  simp only [Option.some.injEq, Prod.mk.injEq] at h
  rw [← h.1]
  exact ⟨hs.release hoff hb, hp.after_release hs hoff hb⟩

theorem ReachSafe.inv {p s : mem_pool} (hp : Inited p) (hP : P_inv p)
    (h : ReachSafe p s) : Inited s ∧ P_inv s := by
  induction h with
  | start => exact ⟨hp, hP⟩
  | alloc _ ha ih => exact alloc_keeps ih.1 ih.2 ha
  | free_rejected _ hf ih =>
    rw [(bmm_free_rejected hf).1]
    exact ih
  | free_set _ h1 h2 hb hf ih => exact free_set_keeps ih.1 ih.2 h1 h2 hb hf

/-- C13 (amended): in every state reached from a successful `bmm_init` by
calls of `bmm_alloc`, calls of `bmm_free` that are rejected and calls of
`bmm_free` with an address inside a block whose bit is set,
`num_free = block_num - popcount` and `num_free ≤ block_num`. -/
theorem num_free_accounting (region : mem_pool)
    (addr_base mem_size block_size align_size : Nat) (p : mem_pool) (hm : mem_size < U32)
    (hinit : bmm_init region addr_base mem_size block_size align_size = some (0, p))
    (hbase : 0 < p.base) (hfits : p.base + p.block_num * p.block_size ≤ U64)
    (s : mem_pool) (hr : ReachSafe p s) :
    s.num_free = s.block_num - popcount s.bitmap s.block_num ∧
      popcount s.bitmap s.block_num ≤ s.block_num ∧ s.num_free ≤ s.block_num := by
  have hs := (hr.inv (bmm_init_inited hm hinit hbase hfits).1 (bmm_init_P hm hinit)).1
  have := hs.accounting
  have := popcount_le s.bitmap s.block_num
  omega

theorem num_free_accounting_witness :
    (take_block pool_256 0).num_free
        = (take_block pool_256 0).block_num
          - popcount (take_block pool_256 0).bitmap (take_block pool_256 0).block_num ∧
      popcount (take_block pool_256 0).bitmap (take_block pool_256 0).block_num
        ≤ (take_block pool_256 0).block_num ∧
      (take_block pool_256 0).num_free ≤ (take_block pool_256 0).block_num :=
  num_free_accounting zero_region 4096 1048576 4096 4096 pool_256 (by decide) rfl
    (by decide) (by decide) (take_block pool_256 0)
    (ReachSafe.alloc (a := 8192) ReachSafe.start rfl)

/-- C13, counterexample: in the fresh pool of 4 blocks of 16 bytes built at
address 4096, `bmm_free` of the first block address 4160, which was never
handed out, is accepted and leaves `num_free = 5` with `block_num = 4` and no
bit set. -/
theorem double_free_breaks_accounting :
    (bmm_init zero_region 4096 64 16 16).bind
        (fun r => (bmm_free r.2 4160).map
          (fun q => (r.1, r.2.base, q.2, q.1.num_free, q.1.block_num,
            popcount q.1.bitmap q.1.block_num)))
      = some (0, 4160, none, 5, 4, 0) ∧
      ¬(5 = 4 - 0) ∧ ¬(5 ≤ 4) :=
  ⟨rfl, by decide, by decide⟩

/-- C19: `P` holds after every successful `bmm_init`; on an initialised pool
it is kept by every `bmm_alloc`, by every rejected `bmm_free` and by every
`bmm_free` of an address inside a block whose bit is set; so it holds in every
state reached without a double free. -/
theorem P_invariant (region : mem_pool) (addr_base mem_size block_size align_size : Nat)
    (p : mem_pool) (hm : mem_size < U32)
    (hinit : bmm_init region addr_base mem_size block_size align_size = some (0, p))
    (hbase : 0 < p.base) (hfits : p.base + p.block_num * p.block_size ≤ U64) :
    P_inv p ∧
      (∀ (s s' : mem_pool) (a : Nat), Inited s → P_inv s →
        bmm_alloc s = some (a, s') → Inited s' ∧ P_inv s') ∧
      (∀ (s s' : mem_pool) (buf e : Nat), P_inv s →
        bmm_free s buf = some (s', some e) → s' = s ∧ P_inv s') ∧
      (∀ (s s' : mem_pool) (buf : Nat) (e : Option Nat), Inited s → P_inv s →
        s.base ≤ buf → buf < s.base + s.block_num * s.block_size →
        bit_is_set s.bitmap ((buf - s.base) / s.block_size) = true →
        bmm_free s buf = some (s', e) → Inited s' ∧ P_inv s') ∧
      ∀ s, ReachSafe p s → P_inv s := by
  refine ⟨bmm_init_P hm hinit, fun s s' a hs hp h => alloc_keeps hs hp h, ?_,
    fun s s' buf e hs hp h1 h2 hb h => free_set_keeps hs hp h1 h2 hb h, ?_⟩
  · intro s s' buf e hp h
    have := (bmm_free_rejected h).1
    exact ⟨this, by rw [this]; exact hp⟩
  · intro s hr
    exact (hr.inv (bmm_init_inited hm hinit hbase hfits).1 (bmm_init_P hm hinit)).2

theorem P_invariant_witness :
    P_inv pool_256 ∧ P_inv (take_block pool_256 0) :=
  have h := P_invariant zero_region 4096 1048576 4096 4096 pool_256 (by decide) rfl
    (by decide) (by decide)
  ⟨h.1, h.2.2.2.2 _ (ReachSafe.alloc (a := 8192) ReachSafe.start rfl)⟩

/-! ## `bmm_alloc` followed by `bmm_free` -/

/-- Setting a clear bit of a 32-bit word and clearing it again gives the word
back. -/
theorem or_and_not_bit {w b : Nat} (hw : w < U32) (hb32 : b < 32)
    (hb : w.testBit b = false) :
    (w ||| (1 <<< b)) &&& ((U32 - 1) ^^^ (1 <<< b)) = w := by
  apply Nat.eq_of_testBit_eq
  intro i
  rw [Nat.testBit_and, Nat.testBit_or, Nat.testBit_xor, Nat.one_shiftLeft,
    Nat.testBit_two_pow, U32_eq, Nat.testBit_two_pow_sub_one]
  by_cases h1 : b = i
  · subst h1
    simp [hb, hb32]
  · by_cases h2 : i < 32
    · simp [h1, h2]
    · have h3 : w.testBit i = false := testBit_eq_false_of_lt_U32 hw (by omega)
      simp [h1, h2, h3]

/-- C15: on an initialised pool with the cursor at most `block_num`, when
`bmm_alloc` returns an address other than `NULL`, `bmm_free` of that address
right afterwards reports no error, takes `num_free` back to its value before
the `bmm_alloc` and every bit of the bitmap back to its value (with 32-bit
words, the words themselves); the bit of the returned block is clear again,
and the geometry fields are as before. -/
theorem alloc_then_free (s : mem_pool) (hs : Inited s) (hc : s.index ≤ s.block_num)
    (a : Nat) (s' : mem_pool) (h : bmm_alloc s = some (a, s')) (ha : a ≠ 0) :
    ∃ s'', bmm_free s' a = some (s'', none) ∧
      s''.num_free = s.num_free ∧
      (∀ k, bit_is_set s''.bitmap k = bit_is_set s.bitmap k) ∧
      ((∀ w, s.bitmap w < U32) → s''.bitmap = s.bitmap) ∧
      (∃ i, i < s.block_num ∧ a = s.base + i * s.block_size ∧
        bit_is_set s'.bitmap i = true ∧ bit_is_set s''.bitmap i = false) ∧
      same_geometry s s'' := by
  rw [hs.alloc_eq hc] at h
  cases hf : first_clear s.bitmap s.index s.block_num with
  | none =>
    rw [hf] at h
    simp only [Option.some.injEq, Prod.mk.injEq] at h
    exact absurd h.1.symm ha
  | some i =>
    rw [hf] at h
    simp only [Option.some.injEq, Prod.mk.injEq] at h
    obtain ⟨ha', hs'⟩ := h
    subst ha' hs'
    obtain ⟨hi, hb, _, _⟩ := first_clear_eq_some hc hf
    have hT : Inited (take_block s i) := hs.take hi hb
    have hend := block_end_le (s := s) hi
    have hbs := hs.block_size_pos
    have hfree : bmm_free (take_block s i) (s.base + i * s.block_size)
        = some (release_block (take_block s i) i, none) := by
      have h1 : (take_block s i).base ≤ s.base + i * s.block_size := by
        show s.base ≤ _
        omega
      have h2 : s.base + i * s.block_size
          < (take_block s i).base + (take_block s i).block_num * (take_block s i).block_size := by
        show _ < s.base + s.block_num * s.block_size
        omega
      have := hT.free_eq h1 h2
      rw [this]
      have e : (s.base + i * s.block_size - (take_block s i).base) / (take_block s i).block_size
          = i := block_offset hs i
      rw [e]
    have hbits : ∀ k, bit_is_set (release_block (take_block s i) i).bitmap k
        = bit_is_set s.bitmap k := by
      intro k
      rw [release_block_bit, take_block_bit]
      by_cases hk : k = i
      · subst hk
        simp [hb]
      · simp [hk]
    refine ⟨release_block (take_block s i) i, hfree, ?_, hbits, ?_, ?_,
      same_geometry_refl s⟩
    · have h1 := hs.take_block_num_free hi hb
      have h2 := hs.num_free_le
      have h3 := hs.block_num_lt
      show ((take_block s i).num_free + 1) % U32 = s.num_free
      rw [h1]
      exact Nat.mod_eq_of_lt (by omega)
    · intro hw
      simp only [release_block, take_block, Function.update_same, Function.update_idem]
      rw [or_and_not_bit (hw (i / 32)) (Nat.mod_lt _ (by norm_num))
        (by simpa [bit_is_set] using hb)]
      exact Function.update_eq_self _ _
    · refine ⟨i, hi, rfl, by simp [take_block_bit], ?_⟩
      rw [hbits]
      exact hb

theorem alloc_then_free_witness :
    ∃ s'', bmm_free (take_block pool_8 5) 4200 = some (s'', none) ∧
      s''.num_free = pool_8.num_free ∧ s''.bitmap = pool_8.bitmap :=
  have h := alloc_then_free pool_8 pool_8_inited (by decide) 4200 (take_block pool_8 5) rfl
    (by decide)
  match h with
  | ⟨s'', h1, h2, _, h3, _⟩ =>
    ⟨s'', h1, h2, h3 (fun w => by
      show (if w = 0 then 19 else 0) < U32
      split <;> decide)⟩

/-! ## Exhausting a fresh pool -/

theorem first_clear_at_cursor {bitmap : Nat → Nat} {j n : Nat} (hj : j < n)
    (hbits : ∀ k, k < n → bit_is_set bitmap k = decide (k < j)) :
    first_clear bitmap j n = some j := by
  have hjc : bit_is_set bitmap j = false := by
    rw [hbits j hj]
    simp
  cases hf : first_clear bitmap j n with
  | none =>
    have := (first_clear_eq_none (le_of_lt hj)).1 hf j hj
    rw [hjc] at this
    exact absurd this (by simp)
  | some i =>
    obtain ⟨hi, hb, hfwd, _⟩ := first_clear_eq_some (le_of_lt hj) hf
    rw [hbits i hi] at hb
    have hji : j ≤ i := by simpa using hb
    by_cases hlt : j < i
    · have := hfwd hji j (le_refl j) hlt
      rw [hjc] at this
      exact absurd this (by simp)
    · have : i = j := by omega
      rw [this]

/-- From a pool with no bit set and the cursor at 0, `j` calls of `bmm_alloc`
hand out the blocks `0 .. j-1` in order. -/
theorem alloc_many_fresh {p : mem_pool} (hp : Inited p) (hidx : p.index = 0)
    (hclear : ∀ k, k < p.block_num → bit_is_set p.bitmap k = false) :
    ∀ j, j ≤ p.block_num → ∃ s,
      alloc_many j p
        = some ((List.range j).reverse.map (fun k => p.base + k * p.block_size), s) ∧
      Inited s ∧ s.index = j ∧ same_geometry p s ∧
      (∀ k, k < p.block_num → bit_is_set s.bitmap k = decide (k < j)) ∧
      s.num_free + j = p.block_num := by
  intro j
  induction j with
  | zero =>
    intro _
    refine ⟨p, rfl, hp, hidx, same_geometry_refl p, ?_, ?_⟩
    · intro k hk
      simp [hclear k hk]
    · have := hp.accounting
      rw [popcount_eq_zero hclear] at this
      omega
  | succ j ih =>
    intro hj
    obtain ⟨s, hrun, hs, hsi, hg, hbits, hnf⟩ := ih (by omega)
    obtain ⟨_, g2, _, g4, g5⟩ := id hg
    have hjn : j < s.block_num := by rw [g5]; omega
    have hbits' : ∀ k, k < s.block_num → bit_is_set s.bitmap k = decide (k < j) := by
      intro k hk
      exact hbits k (by rw [← g5]; exact hk)
    have hf : first_clear s.bitmap s.index s.block_num = some j := by
      rw [hsi]
      exact first_clear_at_cursor hjn hbits'
    have hjc : bit_is_set s.bitmap j = false := by
      rw [hbits' j hjn]
      simp
    have hall : bmm_alloc s = some (p.base + j * p.block_size, take_block s j) := by
      rw [hs.alloc_eq (by rw [hsi]; omega), hf, g2, g4]
    refine ⟨take_block s j, ?_, hs.take hjn hjc, rfl, hg, ?_, ?_⟩
    · rw [alloc_many, hrun]
      simp only [hall, List.range_succ, List.reverse_append, List.reverse_singleton,
        List.singleton_append, List.map_cons]
    · intro k hk
      rw [take_block_bit, hbits k hk]
      by_cases hkj : k = j
      · simp [hkj]
      · have : (k < j + 1) = (k < j) := by
          apply propext
          omega
        simp [hkj, this]
    · have := hs.take_block_num_free hjn hjc
      omega

/-- C16: on the pool that a successful `bmm_init` has just built, with
`N = block_num`, the first `N` calls of `bmm_alloc` return `N` addresses that
are all different from `NULL` and pairwise distinct, they leave
`num_free = 0`, and the next `bmm_alloc` returns `NULL`. -/
theorem alloc_until_exhausted (region : mem_pool)
    (addr_base mem_size block_size align_size : Nat) (p : mem_pool) (hm : mem_size < U32)
    (hinit : bmm_init region addr_base mem_size block_size align_size = some (0, p))
    (hbase : 0 < p.base) (hfits : p.base + p.block_num * p.block_size ≤ U64) :
    ∃ l s, alloc_many p.block_num p = some (l, s) ∧ l.length = p.block_num ∧
      (∀ x, x ∈ l → x ≠ 0) ∧ l.Nodup ∧ s.num_free = 0 ∧
      ∃ s', bmm_alloc s = some (0, s') := by
  obtain ⟨hp, hidx⟩ := bmm_init_inited hm hinit hbase hfits
  obtain ⟨_, _, _, _, hclear⟩ := bmm_init_ok hm hinit
  obtain ⟨s, hrun, hs, hsi, hg, hbits, hnf⟩ :=
    alloc_many_fresh hp hidx hclear p.block_num (le_refl _)
  have hinj : Function.Injective (fun k => p.base + k * p.block_size) := by
    intro x y hxy
    exact block_addr_inj hp hxy
  refine ⟨_, s, hrun, by simp, ?_, ?_, by omega, s, ?_⟩
  · intro x hx
    simp only [List.mem_map] at hx
    obtain ⟨k, _, rfl⟩ := hx
    have := hp.base_pos
    omega
  · exact (List.nodup_reverse.2 (List.nodup_range _)).map hinj
  · have hc : s.index ≤ s.block_num := by
      rw [hsi, hg.2.2.2.2]
    have hnone : first_clear s.bitmap s.index s.block_num = none := by
      rw [first_clear_eq_none hc]
      intro k hk
      rw [hg.2.2.2.2] at hk
      rw [hbits k hk]
      simpa using hk
    rw [hs.alloc_eq hc, hnone]

theorem alloc_until_exhausted_witness :
    ∃ l s, alloc_many pool_256.block_num pool_256 = some (l, s) ∧
      l.length = pool_256.block_num ∧ (∀ x, x ∈ l → x ≠ 0) ∧ l.Nodup ∧ s.num_free = 0 ∧
      ∃ s', bmm_alloc s = some (0, s') :=
  alloc_until_exhausted zero_region 4096 1048576 4096 4096 pool_256 (by decide) rfl
    (by decide) (by decide)

/-! ## The bit tests of `bmm_alloc` -/

/-- Forgetting the record of tests gives `alloc_scan` back. -/
theorem alloc_scan_log_erase (limit : Nat) :
    ∀ (fuel : Nat) (s : mem_pool),
      ((alloc_scan_log limit fuel s).1, (alloc_scan_log limit fuel s).2.1)
        = alloc_scan limit fuel s := by
  intro fuel
  induction fuel with
  | zero =>
    intro s
    rfl
  | succ n ih =>
    intro s
    rw [alloc_scan_log, alloc_scan]
    split
    · dsimp only
      split
      · rfl
      · exact ih _
    · rfl

/-- Forgetting the record of tests gives `bmm_alloc` back. -/
theorem bmm_alloc_log_erase (s : mem_pool) :
    (bmm_alloc_log s).map (fun r => (r.1, r.2.1)) = bmm_alloc s := by
  unfold bmm_alloc_log bmm_alloc
  dsimp only
  split
  · rfl
  · have e1 := alloc_scan_log_erase s.block_num (s.block_num - s.index) s
    rcases h1 : alloc_scan_log s.block_num (s.block_num - s.index) s with ⟨o, t, l⟩
    rw [h1] at e1
    dsimp only at e1
    rw [← e1]
    cases o with
    | some a => rfl
    | none =>
      dsimp only
      have e2 := alloc_scan_log_erase s.index s.index { t with index := 0 }
      rcases h2 : alloc_scan_log s.index s.index { t with index := 0 } with ⟨o', t', l'⟩
      rw [h2] at e2
      dsimp only at e2
      rw [← e2]
      cases o' with
      | some a => rfl
      | none => rfl

/-- The tests of one loop are made at consecutive indices from the cursor on,
each in the word `index / 32`, and a loop that does not return has tested all
the indices it was given. -/
theorem alloc_scan_log_tests (limit : Nat) (hlimit : limit < U32) :
    ∀ (fuel : Nat) (s : mem_pool), s.index + fuel ≤ limit →
      ∃ L, L <+: List.range' s.index fuel ∧
        (alloc_scan_log limit fuel s).2.2 = L.map (fun i => (i, i / 32)) ∧
        ((alloc_scan_log limit fuel s).1 = none → L = List.range' s.index fuel) := by
  intro fuel
  induction fuel with
  | zero =>
    intro s _
    exact ⟨[], by simp, rfl, fun _ => rfl⟩
  | succ n ih =>
    intro s hs
    have hlt : s.index < limit := by omega
    have hi : s.index < U32 := by omega
    have hi1 : (s.index + 1) % U32 = s.index + 1 := Nat.mod_eq_of_lt (by omega)
    rw [alloc_scan_log, if_pos hlt]
    dsimp only
    rw [byte_pos_eq s.index hi, List.range'_succ]
    split
    · refine ⟨[s.index], ?_, rfl, fun h => absurd h (by simp)⟩
      exact List.prefix_iff_eq_append.2 (by simp)
    · obtain ⟨L, hL1, hL2, hL3⟩ := ih { s with index := (s.index + 1) % U32 }
        (by show (s.index + 1) % U32 + n ≤ limit; rw [hi1]; omega)
      have e : ({ s with index := (s.index + 1) % U32 } : mem_pool).index = s.index + 1 := hi1
      rw [e] at hL1 hL3
      refine ⟨s.index :: L, ?_, ?_, ?_⟩
      · exact (List.cons_prefix_cons).2 ⟨rfl, hL1⟩
      · rw [hL2]
        rfl
      · intro h
        rw [hL3 h]

theorem cyclic_order_nodup (c n : Nat) : (cyclic_order c n).Nodup := by
  unfold cyclic_order
  rw [List.nodup_append]
  refine ⟨List.nodup_range' _ _, List.nodup_range _, ?_⟩
  intro x h1 h2
  rw [List.mem_range'_1] at h1
  rw [List.mem_range] at h2
  omega

theorem cyclic_order_length {c n : Nat} (hc : c ≤ n) : (cyclic_order c n).length = n := by
  simp only [cyclic_order, List.length_append, List.length_range', List.length_range]
  omega

/-- The tests of `bmm_alloc` are made at an initial stretch of the cyclic
order that starts at the cursor. -/
theorem bmm_alloc_log_tests {s : mem_pool} (htag : s.tag = TAG) (hc : s.index ≤ s.block_num)
    (hn : s.block_num < U32) :
    ∃ a s' L, bmm_alloc_log s = some (a, s', L.map (fun i => (i, i / 32))) ∧
      L <+: cyclic_order s.index s.block_num := by
  have hc32 : s.index < U32 := by omega
  obtain ⟨L1, p1, t1, n1⟩ :=
    alloc_scan_log_tests s.block_num hn (s.block_num - s.index) s (by omega)
  unfold bmm_alloc_log
  simp only [htag, ne_eq, not_true_eq_false, if_false]
  rcases h1 : alloc_scan_log s.block_num (s.block_num - s.index) s with ⟨o, t, l⟩
  rw [h1] at t1 n1
  dsimp only at t1 n1
  cases o with
  | some a =>
    refine ⟨a, t, L1, by rw [t1], ?_⟩
    exact List.IsPrefix.trans p1 (List.prefix_append _ _)
  | none =>
    dsimp only
    obtain ⟨L2, p2, t2, _⟩ :=
      alloc_scan_log_tests s.index hc32 s.index { t with index := 0 }
        (by show 0 + s.index ≤ s.index; omega)
    have e0 : ({ t with index := 0 } : mem_pool).index = 0 := rfl
    rw [e0, ← List.range_eq_range'] at p2
    have hL1 := n1 rfl
    have hpre : L1 ++ L2 <+: cyclic_order s.index s.block_num := by
      rw [hL1]
      exact (List.prefix_append_right_inj _).2 p2
    rcases h2 : alloc_scan_log s.index s.index { t with index := 0 } with ⟨o', t', l'⟩
    rw [h2] at t2
    dsimp only at t2
    cases o' with
    | some a => exact ⟨a, t', L1 ++ L2, by rw [t1, t2, List.map_append], hpre⟩
    | none => exact ⟨0, t', L1 ++ L2, by rw [t1, t2, List.map_append], hpre⟩

/-- C18: on an initialised pool with the cursor at most `block_num`,
`bmm_alloc` returns after at most `block_num` bit tests; no block index is
tested twice, every index tested is less than `block_num`, and the word of
every test, which is also the only word written, has an index less than
`ceil(block_num / 32)`, the number of words of the bitmap. -/
theorem alloc_tests_bounded (s : mem_pool) (hs : Inited s) (hc : s.index ≤ s.block_num) :
    ∃ a s' tested, bmm_alloc_log s = some (a, s', tested) ∧
      bmm_alloc s = some (a, s') ∧
      tested.length ≤ s.block_num ∧
      (tested.map Prod.fst).Nodup ∧
      ∀ t, t ∈ tested → t.1 < s.block_num ∧ t.2 = t.1 / 32 ∧
        t.2 < (s.block_num - 1) / 32 + 1 := by
  obtain ⟨a, s', L, hlog, hpre⟩ := bmm_alloc_log_tests hs.tag_eq hc hs.block_num_lt
  have hmap : (L.map (fun i => (i, i / 32))).map Prod.fst = L := by
    rw [List.map_map]
    exact List.map_id' L
  refine ⟨a, s', _, hlog, ?_, ?_, ?_, ?_⟩
  · have := bmm_alloc_log_erase s
    rw [hlog] at this
    exact this.symm
  · rw [List.length_map, ← cyclic_order_length hc]
    exact hpre.length_le
  · rw [hmap]
    exact (cyclic_order_nodup _ _).sublist hpre.sublist
  · intro t ht
    rw [List.mem_map] at ht
    obtain ⟨i, hi, rfl⟩ := ht
    have hin : i < s.block_num := (mem_cyclic_order hc).1 (hpre.subset hi)
    refine ⟨hin, rfl, ?_⟩
    show i / 32 < (s.block_num - 1) / 32 + 1
    omega

theorem alloc_tests_bounded_witness :
    ∃ a s' tested, bmm_alloc_log pool_8 = some (a, s', tested) ∧
      bmm_alloc pool_8 = some (a, s') ∧ tested.length ≤ 8 ∧
      (tested.map Prod.fst).Nodup ∧
      ∀ t, t ∈ tested → t.1 < 8 ∧ t.2 = t.1 / 32 ∧ t.2 < (8 - 1) / 32 + 1 :=
  alloc_tests_bounded pool_8 pool_8_inited (by decide)

/-! ## The divisor of `bmm_init` -/

/-- The call `bmm_init` has no result exactly when the arguments pass the
alignment checks and the size check with an effective block size of 0. -/
theorem bmm_init_none_iff (region : mem_pool)
    (addr_base mem_size block_size align_size : Nat) :
    bmm_init region addr_base mem_size block_size align_size = none ↔
      ¬(align_size = 0 ∨ align_size &&& ((U32 - 1 + align_size) % U32) ≠ 0 ∨
          addr_base &&& ((U32 - 1 + align_size) % U32) ≠ 0) ∧
        ALIGN block_size align_size = 0 ∧ 0 < mem_size := by
  rcases bmm_init_cases region addr_base mem_size block_size align_size with
    ⟨h1, hc⟩ | ⟨hv, ⟨h1, h2⟩ | ⟨h1, h2, h3⟩ | ⟨q, h1, h2, _⟩⟩
  · rw [h1]
    exact ⟨fun h => absurd h (by simp), fun h => absurd hc h.1⟩
  · rw [h1]
    exact ⟨fun h => absurd h (by simp), fun h => by omega⟩
  · rw [h1]
    exact ⟨fun _ => ⟨hv, h2, h3⟩, fun _ => rfl⟩
  · rw [h1]
    exact ⟨fun h => absurd h (by simp), fun h => by omega⟩

/-- C20, failing inputs: with `addr_base = 4096`, `mem_size = 100` and
`align_size = 16` the alignment checks pass; for `block_size = 0xFFFFFFF1`,
whose rounding up wraps, and for `block_size = 0` the effective block size is
0, `mem_size <= 0` is false, and `bmm_init` divides by 0. -/
theorem bmm_init_divisor_zero :
    16 = 2 ^ 4 ∧ 16 ∣ 4096 ∧
      ALIGN 4294967281 16 = 0 ∧ ¬(100 ≤ ALIGN 4294967281 16) ∧
      bmm_init zero_region 4096 100 4294967281 16 = none ∧
      ALIGN 0 16 = 0 ∧ ¬(100 ≤ ALIGN 0 16) ∧
      bmm_init zero_region 4096 100 0 16 = none :=
  ⟨rfl, by decide, by decide, by decide, rfl, by decide, by decide, rfl⟩

end Bmm
